import Mathlib

/-!
Verification of the `usos_scraper` repository (src/scrape_timetable.py,
src/run_from_urls.py) against its natural-language specification.

Python strings are embedded as `List Char`able to hold arbitrary Unicode
code points.  The regex-based extraction functions of the source are
embedded as executable Lean functions; leftmost-match regex search is
embedded as a bounded least-index search (`findLeast`), which is exactly
`re.search`'s documented semantics.  Effectful code (HTTP fetch,
subprocess, file writes) is embedded by passing outcomes in and returning
the would-be side effects (printed lines, written files) as data.
-/

namespace Usos

/-- Python strings, as lists of Unicode code points. -/
abbrev PyStr := List Char

/-- Whitespace as recognized by Python's `str.strip()` and the regex class
`\s` on `str` patterns (Unicode whitespace).  This is the exact set of code
points Python's `str.isspace()` accepts. -/
def pyIsSpace (c : Char) : Bool :=
  c.toNat = 32 || c.toNat = 9 || c.toNat = 10 || c.toNat = 13 ||
  c.toNat = 11 || c.toNat = 12 ||
  (28 ≤ c.toNat && c.toNat ≤ 31) || c.toNat = 133 || c.toNat = 160 ||
  c.toNat = 5760 || (8192 ≤ c.toNat && c.toNat ≤ 8202) ||
  c.toNat = 8232 || c.toNat = 8233 || c.toNat = 8239 || c.toNat = 8287 ||
  c.toNat = 12288

/-- ASCII decimal digit.  (Python's `\d` additionally accepts Unicode
decimal digits; the timetable pages only ever carry ASCII digits, so the
embedding restricts to ASCII.) -/
def pyIsDigit (c : Char) : Bool := 48 ≤ c.toNat && c.toNat ≤ 57

/-- Word character for Python's `\w` / `\b`.  ASCII letters, digits and
underscore exactly; code points ≥ 128 are treated as word characters
unless they are whitespace (Python classes Unicode letters and digits as
word characters — the portal's non-ASCII content is Polish letters, which
both classifications treat identically). -/
def pyIsWord (c : Char) : Bool :=
  pyIsDigit c || (65 ≤ c.toNat && c.toNat ≤ 90) || (97 ≤ c.toNat && c.toNat ≤ 122) ||
  c.toNat = 95 || (128 ≤ c.toNat && !pyIsSpace c)

/-- Python's `str.lower()` per character, exact on the Basic Latin,
Latin-1 Supplement and Latin Extended-A blocks (U+0000 to U+017F, the
repertoire of the URL table's Polish program and year labels).  The one
exception is `İ` (U+0130), whose Python lowercase form is the
two-character sequence `i` followed by a combining dot; a
character-to-character model cannot express it, so it is left
unchanged. -/
def pyLowerChar (c : Char) : Char :=
  if 65 ≤ c.toNat ∧ c.toNat ≤ 90 then Char.ofNat (c.toNat + 32)
  else if 192 ≤ c.toNat ∧ c.toNat ≤ 222 ∧ c.toNat ≠ 215 then
    Char.ofNat (c.toNat + 32)
  else if 256 ≤ c.toNat ∧ c.toNat ≤ 310 ∧ c.toNat % 2 = 0 ∧ c.toNat ≠ 304 then
    Char.ofNat (c.toNat + 1)
  else if 313 ≤ c.toNat ∧ c.toNat ≤ 327 ∧ c.toNat % 2 = 1 then
    Char.ofNat (c.toNat + 1)
  else if 330 ≤ c.toNat ∧ c.toNat ≤ 374 ∧ c.toNat % 2 = 0 then
    Char.ofNat (c.toNat + 1)
  else if c.toNat = 376 then Char.ofNat 255
  else if 377 ≤ c.toNat ∧ c.toNat ≤ 381 ∧ c.toNat % 2 = 1 then
    Char.ofNat (c.toNat + 1)
  else c

/-- The uppercase letters of the Basic Latin, Latin-1 Supplement and Latin
Extended-A blocks, excluding `İ` (U+0130) whose lowercase form is not a
single character: exactly the characters `pyLowerChar` maps. -/
def latinUpper (c : Char) : Prop :=
  (65 ≤ c.toNat ∧ c.toNat ≤ 90) ∨
  (192 ≤ c.toNat ∧ c.toNat ≤ 222 ∧ c.toNat ≠ 215) ∨
  (256 ≤ c.toNat ∧ c.toNat ≤ 310 ∧ c.toNat % 2 = 0 ∧ c.toNat ≠ 304) ∨
  (313 ≤ c.toNat ∧ c.toNat ≤ 327 ∧ c.toNat % 2 = 1) ∨
  (330 ≤ c.toNat ∧ c.toNat ≤ 374 ∧ c.toNat % 2 = 0) ∨
  c.toNat = 376 ∨
  (377 ≤ c.toNat ∧ c.toNat ≤ 381 ∧ c.toNat % 2 = 1)

/-- Drop the longest suffix whose characters all satisfy `p`. -/
def dropTrailingWhile (p : Char → Bool) (l : PyStr) : PyStr :=
  (l.reverse.dropWhile p).reverse

/-- Python `str.strip()` with no arguments. -/
def pyStrip (l : PyStr) : PyStr := dropTrailingWhile pyIsSpace (l.dropWhile pyIsSpace)

/-- `&nbsp;` normalization: `info_text.replace("\xa0", " ")`. -/
def nbspToSpace (c : Char) : Char := if c.toNat = 160 then ' ' else c

/-- Fuel-bounded body of `pyReplace` (structural recursion so that
concrete values reduce); every step consumes at least one character, so
`s.length` fuel suffices. -/
def pyReplaceAux (needle repl : PyStr) : Nat → PyStr → PyStr
  | 0, s => s
  | _, [] => []
  | fuel + 1, c :: rest =>
    if needle ≠ [] ∧ needle.isPrefixOf (c :: rest) then
      repl ++ pyReplaceAux needle repl fuel ((c :: rest).drop needle.length)
    else
      c :: pyReplaceAux needle repl fuel rest

/-- Python `str.replace(needle, repl)`: replace every occurrence, scanning
left to right, non-overlapping.  (Python's behaviour for an empty needle is
different, but the source only ever replaces non-empty literals.) -/
def pyReplace (needle repl : PyStr) (s : PyStr) : PyStr :=
  pyReplaceAux needle repl s.length s

/-- Fuel-bounded decimal rendering (structural recursion so that concrete
values reduce); `n + 1` fuel always suffices since `n / 10 < n`. -/
def natToDigitsAux : Nat → Nat → PyStr
  | _, 0 => []
  | n, fuel + 1 =>
    if n < 10 then [Char.ofNat (48 + n)]
    else natToDigitsAux (n / 10) fuel ++ [Char.ofNat (48 + n % 10)]

/-- Decimal rendering of a natural number, as Python's `str()` / f-string
formatting produces for a non-negative `int`. -/
def natToDigits (n : Nat) : PyStr := natToDigitsAux n (n + 1)

/-- Least index `i` in `[start, start + fuel)` with `p i = true`. -/
def findLeastAux (p : Nat → Bool) (start : Nat) : Nat → Option Nat
  | 0 => none
  | fuel + 1 => if p start then some start else findLeastAux p (start + 1) fuel

/-- Least index `i < bound` with `p i = true`, the position search of
`re.search` (leftmost match wins). -/
def findLeast (p : Nat → Bool) (bound : Nat) : Option Nat := findLeastAux p 0 bound

theorem findLeastAux_eq_some {p : Nat → Bool} {start fuel i : Nat}
    (h : findLeastAux p start fuel = some i) :
    p i = true ∧ start ≤ i ∧ i < start + fuel ∧ ∀ j, start ≤ j → j < i → p j = false := by
  induction fuel generalizing start with
  | zero => simp [findLeastAux] at h
  | succ f ih =>
    by_cases hp : p start
    · simp [findLeastAux, hp] at h
      subst h
      exact ⟨hp, Nat.le_refl _, by omega, fun j h1 h2 => absurd h1 (by omega)⟩
    · simp [findLeastAux, hp] at h
      obtain ⟨h1, h2, h3, h4⟩ := ih h
      refine ⟨h1, by omega, by omega, fun j hj1 hj2 => ?_⟩
      rcases Nat.eq_or_lt_of_le hj1 with heq | hlt
      · subst heq
        simpa using hp
      · exact h4 j hlt hj2

theorem findLeastAux_eq_none {p : Nat → Bool} {start fuel : Nat}
    (h : findLeastAux p start fuel = none) :
    ∀ j, start ≤ j → j < start + fuel → p j = false := by
  induction fuel generalizing start with
  | zero => intro j h1 h2; omega
  | succ f ih =>
    by_cases hp : p start
    · simp [findLeastAux, hp] at h
    · simp [findLeastAux, hp] at h
      intro j h1 h2
      rcases Nat.eq_or_lt_of_le h1 with heq | hlt
      · subst heq; simpa using hp
      · exact ih h j hlt (by omega)

theorem findLeastAux_some_of {p : Nat → Bool} {start fuel i : Nat}
    (hp : p i = true) (hlo : start ≤ i) (hhi : i < start + fuel)
    (hmin : ∀ j, start ≤ j → j < i → p j = false) :
    findLeastAux p start fuel = some i := by
  induction fuel generalizing start with
  | zero => omega
  | succ f ih =>
    rcases Nat.eq_or_lt_of_le hlo with heq | hlt
    · subst heq
      simp [findLeastAux, hp]
    · have hs : p start = false := hmin start (Nat.le_refl _) hlt
      simp [findLeastAux, hs]
      exact ih (by omega) (by omega) (fun j h1 h2 => hmin j (by omega) h2)

theorem findLeast_eq_some {p : Nat → Bool} {bound i : Nat}
    (h : findLeast p bound = some i) :
    p i = true ∧ i < bound ∧ ∀ j, j < i → p j = false := by
  obtain ⟨h1, _, h3, h4⟩ := findLeastAux_eq_some h
  exact ⟨h1, by omega, fun j hj => h4 j (Nat.zero_le _) hj⟩

theorem findLeast_eq_none {p : Nat → Bool} {bound : Nat}
    (h : findLeast p bound = none) : ∀ j, j < bound → p j = false :=
  fun j hj => findLeastAux_eq_none h j (Nat.zero_le _) (by omega)

theorem findLeast_some_of {p : Nat → Bool} {bound i : Nat}
    (hp : p i = true) (hhi : i < bound) (hmin : ∀ j, j < i → p j = false) :
    findLeast p bound = some i :=
  findLeastAux_some_of hp (Nat.zero_le _) (by omega) (fun j _ h2 => hmin j h2)

theorem findLeast_none_of {p : Nat → Bool} {bound : Nat}
    (h : ∀ j, p j = false) : findLeast p bound = none := by
  cases heq : findLeast p bound with
  | none => rfl
  | some i =>
    have := (findLeast_eq_some heq).1
    rw [h i] at this
    exact absurd this (by simp)

/-! ## src/scrape_timetable.py -/

/-- The fixed palette `SUBJECT_COLORS` (scrape_timetable.py lines 18-22). -/
def SUBJECT_COLORS : List PyStr :=
  [("#e3f2fd").data, ("#ffe0b2").data, ("#c8e6c9").data, ("#fff9c4").data,
   ("#e1bee7").data, ("#b2dfdb").data, ("#f0f4c3").data, ("#b3e5fc").data,
   ("#d1c4e9").data, ("#ffcdd2").data, ("#f8bbd0").data, ("#cfd8dc").data]

/-- `grid_time_to_str` (scrape_timetable.py lines 25-31):
`re.match(r"g(\d{4})", g.strip())`, a prefix match of `g` followed by four
digits (trailing characters allowed), rendered as `HH:MM`; empty string on
failure. -/
def grid_time_to_str (g : PyStr) : PyStr :=
  match pyStrip g with
  | c :: d1 :: d2 :: d3 :: d4 :: _ =>
    if c = 'g' && pyIsDigit d1 && pyIsDigit d2 && pyIsDigit d3 && pyIsDigit d4 then
      [d1, d2, ':', d3, d4]
    else []
  | _ => []

/-- A match of `LIT\s*(g\d{4})` starting at offset `i` of `s`, returning the
captured token.  (`\s*` is greedy; digits are not whitespace, so the match
is deterministic.) -/
def gridTokAt (lit : PyStr) (s : PyStr) (i : Nat) : Option PyStr :=
  if lit.isPrefixOf (s.drop i) then
    match (s.drop (i + lit.length)).dropWhile pyIsSpace with
    | g :: d1 :: d2 :: d3 :: d4 :: _ =>
      if g = 'g' && pyIsDigit d1 && pyIsDigit d2 && pyIsDigit d3 && pyIsDigit d4 then
        some [g, d1, d2, d3, d4]
      else none
    | _ => none
  else none

/-- `re.search(r"LIT\s*(g\d{4})", s)`: the leftmost position where the
pattern matches, returning the captured token. -/
def reSearchGrid (lit : PyStr) (s : PyStr) : Option PyStr :=
  (findLeast (fun i => (gridTokAt lit s i).isSome) (s.length + 1)).bind
    (fun i => gridTokAt lit s i)

/-- `parse_style_times` (scrape_timetable.py lines 34-40). -/
def parse_style_times (style : PyStr) : PyStr × PyStr :=
  let s :=
    match reSearchGrid ("grid-row-start:").data style with
    | some tok => grid_time_to_str tok
    | none => []
  let e :=
    match reSearchGrid ("grid-row-end:").data style with
    | some tok => grid_time_to_str tok
    | none => []
  (s, e)

/-- The `\bgr\.` part of `\bgr\.\s*(\d+)` with `re.IGNORECASE`, plus the
requirement that at least one digit follows the optional whitespace
(without a digit the regex does not match at this position). -/
def markerCoreAt (t : PyStr) (i : Nat) : Bool :=
  match t.drop i with
  | g :: r :: d :: rest =>
    (g = 'g' || g = 'G') && (r = 'r' || r = 'R') && d = '.' &&
      !(((rest.dropWhile pyIsSpace).takeWhile pyIsDigit).isEmpty)
  | _ => false

/-- The word boundary `\b` before the `g`: position 0, or a preceding
non-word character (`g` itself is a word character). -/
def boundaryAt (t : PyStr) (i : Nat) : Bool :=
  match i with
  | 0 => true
  | j + 1 =>
    match t[j]? with
    | some c => !(pyIsWord c)
    | none => true

/-- Full match of `\bgr\.\s*(\d+)` (IGNORECASE) at offset `i` of `t`. -/
def markerAt (t : PyStr) (i : Nat) : Bool := boundaryAt t i && markerCoreAt t i

/-- The digits captured by `(\d+)` for a marker match at offset `i`
(greedy `\s*` then maximal digit run; whitespace and digits are disjoint,
so this is deterministic). -/
def markerDigits (t : PyStr) (i : Nat) : PyStr :=
  ((t.drop (i + 3)).dropWhile pyIsSpace).takeWhile pyIsDigit

/-- `re.search(r"\bgr\.\s*(\d+)", t, re.IGNORECASE)`: leftmost match start
and captured digits. -/
def grFind (t : PyStr) : Option (Nat × PyStr) :=
  (findLeast (markerAt t) (t.length + 1)).map (fun i => (i, markerDigits t i))

/-- The `[^)]+` capture region for a `(` at offset `i`: everything up to
the next `)`. -/
def roomContent (t : PyStr) (i : Nat) : PyStr :=
  (t.drop (i + 1)).takeWhile (fun c => c ≠ ')')

/-- Match of `\(\s*([^)]+)\s*\)` at offset `i` of `t`: an opening
parenthesis followed (before the next `)`) by at least one character, with
a closing parenthesis present. -/
def roomAt (t : PyStr) (i : Nat) : Bool :=
  (t[i]? = some '(') && (t.drop (i + 1)).any (fun c => c = ')') &&
    !(roomContent t i).isEmpty

/-- `re.search(r"\(\s*([^)]+)\s*\)", t)`: leftmost matching position. -/
def roomFind (t : PyStr) : Option Nat := findLeast (roomAt t) (t.length + 1)

/-- The room field after Python's `.strip()` of the captured group.
Greediness inside the capture only shifts leading/trailing whitespace
between `\s*` and `[^)]+`, which the final `.strip()` erases, so stripping
the whole pre-`)` region is exact. -/
def roomField (t : PyStr) : PyStr :=
  match roomFind t with
  | some i => pyStrip (roomContent t i)
  | none => []

/-- `parse_info_slot` (scrape_timetable.py lines 43-60). -/
def parse_info_slot (info : PyStr) : PyStr × PyStr × PyStr :=
  match info with
  | [] => ([], [], [])
  | _ :: _ =>
    let text := pyStrip (info.map nbspToSpace)
    let room := roomField text
    match grFind text with
    | some (i, ds) =>
      (pyStrip (dropTrailingWhile (fun c => c = ',') (pyStrip (text.take i))), ds, room)
    | none =>
      (pyStrip (text.takeWhile (fun c => c ≠ ',')), [], room)

/-- `:MM` part of the time regex: a colon followed by exactly two digits. -/
def colonMM : PyStr → Option (PyStr × PyStr)
  | c :: d1 :: d2 :: rest =>
    if c = ':' && pyIsDigit d1 && pyIsDigit d2 then some ([c, d1, d2], rest) else none
  | _ => none

/-- `\d{1,2}:\d{2}` at the head of `s` (greedy: two leading digits tried
before one), returning the matched text and the remainder. -/
def hmAt : PyStr → Option (PyStr × PyStr)
  | [] => none
  | a :: rest1 =>
    if pyIsDigit a then
      match rest1 with
      | b :: rest2 =>
        if pyIsDigit b then
          match colonMM rest2 with
          | some (mm, rest3) => some (a :: b :: mm, rest3)
          | none => (colonMM rest1).map (fun p => (a :: p.1, p.2))
        else (colonMM rest1).map (fun p => (a :: p.1, p.2))
      | [] => none
    else none

/-- `(\d{1,2}:\d{2})\s*[—\-]\s*(\d{1,2}:\d{2})` at the head of `s`,
returning the two captured times. -/
def timeRangeAt (s : PyStr) : Option (PyStr × PyStr) :=
  match hmAt s with
  | some (t1, rest) =>
    match rest.dropWhile pyIsSpace with
    | d :: r3 =>
      if d = '—' || d = '-' then
        match hmAt (r3.dropWhile pyIsSpace) with
        | some (t2, _) => some (t1, t2)
        | none => none
      else none
    | [] => none
  | none => none

/-- `re.search` for the combined time-range pattern (leftmost match). -/
def timeRangeSearch (s : PyStr) : Option (PyStr × PyStr) :=
  (findLeast (fun i => (timeRangeAt (s.drop i)).isSome) (s.length + 1)).bind
    (fun i => timeRangeAt (s.drop i))

/-- Left-pad a single-digit hour: `if len(x) == 4: x = "0" + x`. -/
def padTime (t : PyStr) : PyStr := if t.length = 4 then '0' :: t else t

/-- One `timetable-entry` element, reduced to the pieces the scraper
reads: the `style` attribute, the text of the `span[slot=time]` child (if
present), the text of the `span[slot=dialog-event]` child (if present),
the `name` attribute, and the raw text of the `div[slot=info]` child. -/
structure TEntry where
  style : PyStr
  timeSpan : Option PyStr
  dialogEv : Option PyStr
  name : Option PyStr
  infoDiv : Option PyStr
deriving DecidableEq

/-- One `timetable-day` container: the text of an `h4` heading in its
parent element (if any), and its `timetable-entry` children in document
order. -/
structure DayBlock where
  parentH4 : Option PyStr
  entries : List TEntry
deriving DecidableEq

/-- A scraped event record (the dict built at scrape_timetable.py lines
111-119).  `endT` embeds the `"end"` key (`end` is a Lean keyword). -/
structure Event where
  day : PyStr
  start : PyStr
  endT : PyStr
  subject : PyStr
  type : PyStr
  group : PyStr
  room : PyStr
deriving DecidableEq

/-- The per-entry body of the scrape loop (scrape_timetable.py lines
89-119): style-derived times, falling back to the time span text and the
dialog's combined `HH:MM–HH:MM` range, then subject/info extraction. -/
def entryToEvent (dayName : PyStr) (en : TEntry) : Event :=
  let st := parse_style_times en.style
  let se :=
    if st.1.isEmpty || st.2.isEmpty then
      let s1 :=
        match en.timeSpan with
        | some ts => pyStrip ts
        | none => st.1
      match en.dialogEv with
      | some dt =>
        match timeRangeSearch (pyStrip dt) with
        | some (a, b) => (padTime a, padTime b)
        | none => (s1, st.2)
      | none => (s1, st.2)
    else st
  let subject := pyStrip (en.name.getD [])
  let r := parse_info_slot (en.infoDiv.getD [])
  { day := dayName, start := se.1, endT := se.2, subject := subject,
    type := r.1, group := r.2.1, room := r.2.2 }

/-- The fixed weekday labels (scrape_timetable.py line 78). -/
def dayNames : List PyStr :=
  [("Poniedziałek").data, ("Wtorek").data, ("Środa").data,
   ("Czwartek").data, ("Piątek").data]

/-- Day-label assignment and entry extraction for the `i`-th day container
(scrape_timetable.py lines 81-119): the `i`-th fixed weekday label, `"Day
N"` past the end of the fixed list, overridden by the parent's `h4` text
when one exists. -/
def processDay (i : Nat) (td : DayBlock) : List Event :=
  let base :=
    if h : i < dayNames.length then dayNames.get ⟨i, h⟩
    else ("Day ").data ++ natToDigits (i + 1)
  let dayName :=
    match td.parentH4 with
    | some t => pyStrip t
    | none => base
  td.entries.map (entryToEvent dayName)

/-- Iteration with index, embedding `for i, td in enumerate(day_blocks)`. -/
def scrapeAux (i : Nat) : List DayBlock → List Event
  | [] => []
  | td :: rest => processDay i td ++ scrapeAux (i + 1) rest

/-- `scrape_timetable` (scrape_timetable.py lines 72-121), over the list
of day containers located in the parsed document. -/
def scrape_timetable (days : List DayBlock) : List Event := scrapeAux 0 days

/-- The metadata record built per subject (scrape_timetable.py lines
130-136). -/
structure SubjectMeta where
  ects : PyStr
  status : PyStr
  verify : PyStr
  short : PyStr
  color : PyStr
deriving DecidableEq

/-- Python string comparison: lexicographic by code point. -/
def lexLe : PyStr → PyStr → Bool
  | [], _ => true
  | _ :: _, [] => false
  | x :: xs, y :: ys => if x = y then lexLe xs ys else decide (x.toNat < y.toNat)

/-- `sorted(list({e["subject"] for e in events if e["subject"]}))`: the
distinct non-empty subjects in lexicographically sorted order.  (The
intermediate `set` order is arbitrary in Python; `sorted` canonicalizes
it, so deduplication order is irrelevant.) -/
def sortedSubjects (events : List Event) : List PyStr :=
  List.insertionSort (fun a b => lexLe a b = true)
    (((events.map Event.subject).filter (fun s => !s.isEmpty)).dedup)

/-- The short display label: the subject unchanged when at most 20
characters, else its first 17 characters plus `"..."` (line 129). -/
def shortOf (s : PyStr) : PyStr :=
  if s.length ≤ 20 then s else s.take 17 ++ ("...").data

/-- The record stored for the subject of rank `i` (lines 130-136). -/
def mkMeta (s : PyStr) (i : Nat) : SubjectMeta :=
  { ects := ("?").data, status := ("?").data, verify := ("?").data,
    short := shortOf s,
    color := SUBJECT_COLORS.getD (i % SUBJECT_COLORS.length) [] }

/-- The insertion loop `for i, subj in enumerate(sorted(subjects))`. -/
def metaListAux (i : Nat) : List PyStr → List (PyStr × SubjectMeta)
  | [] => []
  | s :: rest => (s, mkMeta s i) :: metaListAux (i + 1) rest

/-- `build_meta_data` (scrape_timetable.py lines 124-137).  The Python
dict is embedded as an association list in insertion (= sorted) order. -/
def build_meta_data (events : List Event) : List (PyStr × SubjectMeta) :=
  metaListAux 0 (sortedSubjects events)

/-- Association-list lookup, the embedding of `meta[subj]`. -/
def lookupA (k : PyStr) : List (PyStr × SubjectMeta) → Option SubjectMeta
  | [] => none
  | (k2, v) :: rest => if k = k2 then some v else lookupA k rest

/-- Index of the first occurrence of `a` (the subject's rank in the
sorted distinct list). -/
def idxOf (a : PyStr) : List PyStr → Nat
  | [] => 0
  | b :: rest => if a = b then 0 else idxOf a rest + 1

/-- `e["subject"].replace(chr(34), chr(92)+chr(34))`: escape embedded
double quotes with a backslash. -/
def escq (s : PyStr) : PyStr := pyReplace [Char.ofNat 34] [Char.ofNat 92, Char.ofNat 34] s

/-- The 12-space indentation of every generated data line. -/
def recIndent : PyStr := ("            ").data

/-- The record-opening text common to every serialized event line. -/
def recMarker : PyStr := recIndent ++ ("\x7b day: \"").data

/-- One serialized event record (the f-string at scrape_timetable.py
lines 144-148). -/
def eventLine (e : Event) : PyStr :=
  recMarker ++ e.day ++ ("\", start: \"").data ++ e.start ++
  ("\", end: \"").data ++ e.endT ++ ("\", subject: \"").data ++ escq e.subject ++
  ("\", type: \"").data ++ e.type ++ ("\", group: \"").data ++ e.group ++
  ("\", room: \"").data ++ escq e.room ++ ("\" \x7d,").data

/-- `"\n".join(lines)`. -/
def joinNl : List PyStr → PyStr
  | [] => []
  | [l] => l
  | l :: r :: rest => l ++ '\n' :: joinNl (r :: rest)

/-- `raw_data_to_js` (scrape_timetable.py lines 140-150). -/
def raw_data_to_js (events : List Event) : PyStr :=
  match events with
  | [] => ("            // no events").data
  | _ :: _ => joinNl (events.map eventLine)

/-- One lowercase hexadecimal digit. -/
def hexDigit (n : Nat) : Char :=
  if n < 10 then Char.ofNat (48 + n) else Char.ofNat (87 + n % 16)

/-- Four lowercase hex digits, as in `json.dumps`'s `\uXXXX` escapes. -/
def hex4 (n : Nat) : PyStr :=
  [hexDigit (n / 4096 % 16), hexDigit (n / 256 % 16), hexDigit (n / 16 % 16),
   hexDigit (n % 16)]

/-- Per-character escaping of `json.dumps` with its default
`ensure_ascii=True`: backslash, quote and the named control escapes, other
characters outside `0x20..0x7e` as `\uXXXX` (surrogate pairs above the
BMP). -/
def jsonEscChar (c : Char) : PyStr :=
  if c.toNat = 92 then ("\\\\").data
  else if c.toNat = 34 then ("\\\"").data
  else if c.toNat = 10 then ("\\n").data
  else if c.toNat = 9 then ("\\t").data
  else if c.toNat = 13 then ("\\r").data
  else if c.toNat = 8 then ("\\b").data
  else if c.toNat = 12 then ("\\f").data
  else if c.toNat < 32 then ("\\u").data ++ hex4 c.toNat
  else if c.toNat < 127 then [c]
  else if c.toNat < 65536 then ("\\u").data ++ hex4 c.toNat
  else
    ("\\u").data ++ hex4 (55296 + (c.toNat - 65536) / 1024) ++
    ("\\u").data ++ hex4 (56320 + (c.toNat - 65536) % 1024)

/-- `json.dumps` of a string. -/
def jsonStr (s : PyStr) : PyStr := '"' :: (s.flatMap jsonEscChar) ++ ['"']

/-- One serialized metadata line (scrape_timetable.py lines 157-161). -/
def metaLine (subj : PyStr) (d : SubjectMeta) : PyStr :=
  let esc := pyReplace [Char.ofNat 34] [Char.ofNat 92, Char.ofNat 34]
    (pyReplace [Char.ofNat 92] [Char.ofNat 92, Char.ofNat 92] subj)
  recIndent ++ '"' :: esc ++ ("\": \x7b ects: ").data ++ jsonStr d.ects ++
  (", status: ").data ++ jsonStr d.status ++ (", verify: ").data ++ jsonStr d.verify ++
  (", short: ").data ++ jsonStr d.short ++ (", color: ").data ++ jsonStr d.color ++
  (" \x7d,").data

/-- `meta_data_to_js` (scrape_timetable.py lines 153-162).
`sorted(meta.items())` compares keys first and the keys are distinct, so
the iteration order is key-sorted; `build_meta_data` already produces that
order. -/
def meta_data_to_js (meta : List (PyStr × SubjectMeta)) : PyStr :=
  match meta with
  | [] => ("            // no meta").data
  | _ :: _ => joinNl (meta.map (fun p => metaLine p.1 p.2))

/-! ### The block-substitution regexes

`const rawData = \[\s*[\s\S]*?\n\s*\];` (and the analogous `metaData`
pattern).  After the literal opener, the engine takes the greedy `\s*`
run, then lazily extends `[\s\S]*?` to the first position where
`\n\s*\];` completes; if no such position at or past the whitespace run
exists, it backtracks the leading `\s*` into the run, which succeeds
exactly when the run contains a newline and is followed immediately by
`];`.  This derivation was validated against CPython's `re` on the
boundary cases (empty body, whitespace-only body, terminator inside the
leading run). -/

/-- Length of the maximal whitespace prefix (a greedy `\s*`). -/
def wsRun (s : PyStr) : Nat := (s.takeWhile pyIsSpace).length

/-- `\n\s*C;` anchored at the head of `s` (for `C` the closing bracket):
the number of characters consumed, if it matches. -/
def closeLenAt (close : Char) (s : PyStr) : Option Nat :=
  match s with
  | c :: rest =>
    if c = '\n' then
      match rest.drop (wsRun rest) with
      | a :: b :: _ => if a = close && b = ';' then some (1 + wsRun rest + 2) else none
      | _ => none
    else none
  | [] => none

/-- Lazy scan for the earliest position where `\n\s*C;` completes;
returns the total length consumed from the scan start through the `;`. -/
def scanTerm (close : Char) : PyStr → Option Nat
  | [] => none
  | c :: rest =>
    match closeLenAt close (c :: rest) with
    | some n => some n
    | none => (scanTerm close rest).map (fun m => m + 1)

/-- Match of the whole block pattern at the head of `s`: the literal
opener, the greedy leading `\s*`, the lazy body, and the terminator.
Returns the length of the matched text. -/
def matchBlock (opener : PyStr) (close : Char) (s : PyStr) : Option Nat :=
  if opener.isPrefixOf s then
    let a := s.drop opener.length
    let m0 := wsRun a
    match scanTerm close (a.drop m0) with
    | some n => some (opener.length + m0 + n)
    | none =>
      if (a.take m0).any (fun c => c = '\n') &&
          (match a.drop m0 with
           | x :: y :: _ => x = close && y = ';'
           | _ => false) then
        some (opener.length + m0 + 2)
      else none
  else none

/-- The literal opener of the event-array pattern. -/
def rawOpener : PyStr := ("const rawData = [").data

/-- The literal opener of the metadata pattern. -/
def metaOpener : PyStr := ("const metaData = \x7b").data

/-- Head match of the `rawData` block pattern. -/
def matchRaw (s : PyStr) : Option Nat := matchBlock rawOpener ']' s

/-- Head match of the `metaData` block pattern. -/
def matchMeta (s : PyStr) : Option Nat := matchBlock metaOpener '}' s

/-- `pattern.sub(repl, s, count=1)` for a pattern that cannot match the
empty string: scan left to right, replace the leftmost match only, copy
everything else verbatim; the text is returned unchanged when there is no
match. -/
def subFirst (me : PyStr → Option Nat) (repl : PyStr) : PyStr → PyStr
  | [] => []
  | c :: rest =>
    match me (c :: rest) with
    | some n => repl ++ (c :: rest).drop n
    | none => c :: subFirst me repl rest

/-- Leftmost match position and length, the observer used to re-scan the
rendered output for the injected block. -/
def findFirstLen (me : PyStr → Option Nat) : PyStr → Option (Nat × Nat)
  | [] => none
  | c :: rest =>
    match me (c :: rest) with
    | some n => some (0, n)
    | none => (findFirstLen me rest).map (fun p => (p.1 + 1, p.2))

/-- The title placeholder token. -/
def titleMarker : PyStr := ("__PLAN_TITLE__").data

/-- Per-character table of `html.escape` (quote=True). -/
def htmlEscapeChar (c : Char) : PyStr :=
  if c.toNat = 38 then ("&amp;").data
  else if c.toNat = 60 then ("&lt;").data
  else if c.toNat = 62 then ("&gt;").data
  else if c.toNat = 34 then ("&quot;").data
  else if c.toNat = 39 then ("&#x27;").data
  else [c]

/-- `html.escape(plan_title)`. -/
def htmlEscape (s : PyStr) : PyStr := s.flatMap htmlEscapeChar

/-- The replacement text injected for the event-array block
(`f"const rawData = [\n{raw_js}\n        ];"`, line 183). -/
def rawRepl (events : List Event) : PyStr :=
  rawOpener ++ '\n' :: raw_data_to_js events ++ '\n' :: ("        ];").data

/-- The replacement text injected for the metadata block (line 193). -/
def metaRepl (events : List Event) : PyStr :=
  metaOpener ++ '\n' :: meta_data_to_js (build_meta_data events) ++
    '\n' :: ("        \x7d;").data

/-- `generate_readable_html` (scrape_timetable.py lines 165-198), as the
text written to the output file: title replacement, then the single
event-array substitution, then (when `inject_meta`) the single metadata
substitution. -/
def generate_readable_html (events : List Event) (template : PyStr)
    (inject_meta : Bool) (plan_title : PyStr) : PyStr :=
  let t1 := pyReplace titleMarker (htmlEscape plan_title) template
  let t2 := subFirst matchRaw (rawRepl events) t1
  if inject_meta then subFirst matchMeta (metaRepl events) t2 else t2

/-- The renderer's first intermediate document (the `t1` local of
`generate_readable_html`): the template after title substitution. -/
def titled (plan_title template : PyStr) : PyStr :=
  pyReplace titleMarker (htmlEscape plan_title) template

/-- The renderer's second intermediate document (the `t2` local of
`generate_readable_html`): the title-substituted template after the single
event-array substitution. -/
def rawStep (events : List Event) (plan_title template : PyStr) : PyStr :=
  subFirst matchRaw (rawRepl events) (titled plan_title template)

/-- The renderer's metadata substitution (the `inject_meta` branch of
`generate_readable_html`). -/
def metaStep (events : List Event) (doc : PyStr) : PyStr :=
  subFirst matchMeta (metaRepl events) doc

/-! ## src/run_from_urls.py -/

/-- `slug` (run_from_urls.py lines 22-24):
`re.sub(r"[^\w\-]", "_", s.strip().lower()).strip("_") or "page"`.
The character class matches single characters, so the substitution is a
per-character map; `.strip("_")` removes leading and trailing
underscores. -/
def slug (s : PyStr) : PyStr :=
  let base := (pyStrip s).map pyLowerChar
  let subbed := base.map (fun c => if pyIsWord c || c = '-' then c else '_')
  let stripped := dropTrailingWhile (fun c => c = '_')
    (subbed.dropWhile (fun c => c = '_'))
  if stripped.isEmpty then ("page").data else stripped

/-- `output_filename` (run_from_urls.py lines 54-55). -/
def output_filename (program year : PyStr) : PyStr :=
  slug program ++ '_' :: slug year ++ (".html").data

/-- The outcome of the effectful stages of one batch entry: the HTTP GET
either raises a `RequestException` or succeeds, after which the
`scrape_timetable.py` subprocess either exits non-zero
(`CalledProcessError`) or succeeds. -/
inductive EntryOutcome where
  | fetchErr (msg : PyStr)
  | scrapeErr (msg : PyStr)
  | ok
deriving DecidableEq

/-- `fetch_and_build` (run_from_urls.py lines 58-89), with the network
and subprocess effects supplied as an outcome: returns the success flag,
the lines it prints, and the output file it causes to be written (the
subprocess writes `output_path` only when it succeeds; on fetch failure it
is never started). -/
def fetch_and_build (o : EntryOutcome) (outName : PyStr) :
    Bool × List PyStr × Option PyStr :=
  match o with
  | .fetchErr m => (false, [("  Fetch failed: ").data ++ m], none)
  | .scrapeErr m => (false, [("  Scrape failed: ").data ++ m], none)
  | .ok => (true, [], some outName)

/-- What the batch loop does for one `(program, year, url)` entry: the
progress line it prints, the messages and success flag of
`fetch_and_build`, and the output file written for it (if any). -/
structure EntryReport where
  header : PyStr
  messages : List PyStr
  succeeded : Bool
  wrote : Option PyStr
deriving DecidableEq

/-- The body of `for program, year, url in entries:` (run_from_urls.py
lines 118-123). -/
def runEntry (program year : PyStr) (o : EntryOutcome) : EntryReport :=
  let name := output_filename program year
  let r := fetch_and_build o name
  { header := ("  ").data ++ program ++ (" / ").data ++ year ++ (" -> ").data ++ name,
    messages := r.2.1, succeeded := r.1, wrote := r.2.2 }

/-- The observable result of one batch run. -/
structure BatchResult where
  reports : List EntryReport
  finalLine : PyStr
  wrotePlaceholder : Bool
  exitCode : Nat
deriving DecidableEq

/-- `main` of run_from_urls.py (lines 92-124) from the point where the
sorted entry list is known, with each entry's effect outcome supplied:
processes every entry in order (failures are reported and skipped, never
propagated), then prints the `Built ok/total` tally; an empty table writes
the placeholder landing page instead.  The process always exits 0. -/
def main_model (outDir : PyStr) (table : List (PyStr × PyStr × EntryOutcome)) :
    BatchResult :=
  if table.isEmpty then
    { reports := [],
      finalLine := ("No URLs in urls.py (URLS dict empty or no valid program/year/url entries).").data,
      wrotePlaceholder := true, exitCode := 0 }
  else
    let reports := table.map (fun t => runEntry t.1 t.2.1 t.2.2)
    let okN := reports.countP (fun r => r.succeeded)
    { reports := reports,
      finalLine := ("Built ").data ++ natToDigits okN ++ ("/").data ++
        natToDigits table.length ++ (" timetables in ").data ++ outDir,
      wrotePlaceholder := false, exitCode := 0 }

/-! ### Observers and sample data used by the claim statements -/

/-- `"gr."` occurs (case-insensitively) as a substring: the spec's
"contains a group marker". -/
def hasGr : PyStr → Bool
  | a :: b :: c :: rest =>
    ((a = 'g' || a = 'G') && (b = 'r' || b = 'R') && c = '.') || hasGr (b :: c :: rest)
  | _ => false

/-- No field of the event contains a newline (the claim C7 hypothesis on
event lists). -/
def nlFree (e : Event) : Prop :=
  '\n' ∉ e.day ∧ '\n' ∉ e.start ∧ '\n' ∉ e.endT ∧ '\n' ∉ e.subject ∧
  '\n' ∉ e.type ∧ '\n' ∉ e.group ∧ '\n' ∉ e.room

/-- Split on newline characters, as a re-scanner of the rendered output
would to recover "one literal record per line". -/
def splitNl : PyStr → List PyStr
  | [] => [[]]
  | c :: rest =>
    if c = '\n' then [] :: splitNl rest
    else
      match splitNl rest with
      | [] => [[c]]
      | h :: t2 => (c :: h) :: t2

/-- A line of the injected block that is a serialized event record: it
starts with the indented record opener and ends with the record closer. -/
def isRecordLine (l : PyStr) : Bool :=
  recMarker.isPrefixOf l && (("\x7d,").data).isSuffixOf l

/-- Re-scan the rendered output for the injected event block
(the spec's "re-scanning the output for the injected event block"): locate
the leftmost match of the event-array pattern and collect its serialized
record lines. -/
def scanRecords (s : PyStr) : List PyStr :=
  match findFirstLen matchRaw s with
  | none => []
  | some (p, n) => (splitNl ((s.drop p).take n)).filter isRecordLine

/-- Shape shared by every line of a generated event block: no newline,
and a 12-space indent followed by a non-whitespace character other than
`]` (so the terminator scan cannot stop inside the block). -/
def lineShape (l : PyStr) : Prop :=
  ('\n') ∉ l ∧ ∃ c cr, l = recIndent ++ c :: cr ∧ pyIsSpace c = false ∧ c ≠ ']'

/-- A minimal concrete entry, for witnesses. -/
def sampleEntry : TEntry :=
  { style := [], timeSpan := none, dialogEv := none, name := none, infoDiv := none }

/-- A minimal concrete day container with an `h4` override, for
witnesses. -/
def sampleDay : DayBlock :=
  { parentH4 := some (("Hdr").data), entries := [sampleEntry] }

/-- A concrete event record, for witnesses. -/
def sampleEvent : Event :=
  { day := ("Pn").data, start := ("08:00").data, endT := ("09:30").data,
    subject := ("Algo").data, type := ("CWL").data, group := ("2").data,
    room := ("101").data }

/-! ## Supporting lemmas -/

theorem char_toNat_inj {a b : Char} (h : a.toNat = b.toNat) : a = b :=
  Char.ext (UInt32.toNat.inj h)

theorem char_toNat_ofNat_of_lt {n : Nat} (h : n < 55296) :
    (Char.ofNat n).toNat = n := by
  have hv : n.isValidChar := Or.inl h
  unfold Char.ofNat
  rw [dif_pos hv]
  rfl

theorem pyIsSpace_eq_false_of_digit {c : Char} (h : pyIsDigit c = true) :
    pyIsSpace c = false := by
  simp [pyIsDigit] at h
  simp [pyIsSpace]
  omega

/-- Membership transfers out of `dropTrailingWhile`. -/
theorem mem_of_mem_dropTrailingWhile {p : Char → Bool} {l : PyStr} {c : Char}
    (h : c ∈ dropTrailingWhile p l) : c ∈ l := by
  unfold dropTrailingWhile at h
  rw [List.mem_reverse] at h
  have h2 := (@List.dropWhile_sublist _ l.reverse p).mem h
  exact List.mem_reverse.mp h2

/-- Membership transfers out of `pyStrip`. -/
theorem mem_of_mem_pyStrip {l : PyStr} {c : Char} (h : c ∈ pyStrip l) : c ∈ l := by
  unfold pyStrip at h
  exact (List.dropWhile_sublist pyIsSpace).mem (mem_of_mem_dropTrailingWhile h)

/-! ## Claim C8: grid-token time conversion -/

/-- C8: for every token `g` followed by exactly four digits,
`grid_time_to_str` yields `"HH:MM"` with `HH` the first two digits and `MM`
the last two; `parse_style_times` applies this to the `grid-row-start` /
`grid-row-end` tokens of a style attribute (witnessed on the style string
`"grid-row-start: g0945; grid-row-end: g1100"`). -/
theorem c8_time_conversion :
    (∀ d1 d2 d3 d4 : Char, pyIsDigit d1 = true → pyIsDigit d2 = true →
      pyIsDigit d3 = true → pyIsDigit d4 = true →
      grid_time_to_str ['g', d1, d2, d3, d4] = [d1, d2, ':', d3, d4]) ∧
    parse_style_times ("grid-row-start: g0945; grid-row-end: g1100").data =
      (("09:45").data, ("11:00").data) := by
  refine ⟨?_, by decide⟩
  intro d1 d2 d3 d4 h1 h2 h3 h4
  have hg : pyIsSpace 'g' = false := by decide
  have n4 := pyIsSpace_eq_false_of_digit h4
  have hs : pyStrip ['g', d1, d2, d3, d4] = ['g', d1, d2, d3, d4] := by
    simp [pyStrip, dropTrailingWhile, List.dropWhile, hg, n4]
  simp [grid_time_to_str, hs, h1, h2, h3, h4]

theorem c8_time_conversion_witness :
    pyIsDigit '0' = true ∧ pyIsDigit '9' = true ∧ pyIsDigit '4' = true ∧
    pyIsDigit '5' = true ∧
    grid_time_to_str ['g', '0', '9', '4', '5'] = ['0', '9', ':', '4', '5'] :=
  ⟨by decide, by decide, by decide, by decide,
    c8_time_conversion.1 '0' '9' '4' '5' (by decide) (by decide) (by decide) (by decide)⟩

/-! ## Claim C10: parse_info_slot invariants -/

/-- Unfolding equation for `parse_info_slot` on a non-empty input. -/
theorem parse_info_slot_cons (a : Char) (rest : PyStr) :
    parse_info_slot (a :: rest) =
      match grFind (pyStrip ((a :: rest).map nbspToSpace)) with
      | some (i, ds) =>
        (pyStrip (dropTrailingWhile (fun c => c = ',')
            (pyStrip ((pyStrip ((a :: rest).map nbspToSpace)).take i))), ds,
          roomField (pyStrip ((a :: rest).map nbspToSpace)))
      | none =>
        (pyStrip ((pyStrip ((a :: rest).map nbspToSpace)).takeWhile
          (fun c => c ≠ ',')), [],
          roomField (pyStrip ((a :: rest).map nbspToSpace))) := rfl

/-- A successful `grFind` returns the least marker position together with
its captured digits. -/
theorem grFind_some {t : PyStr} {i : Nat} {ds : PyStr}
    (hg : grFind t = some (i, ds)) :
    markerAt t i = true ∧ ds = markerDigits t i ∧
      ∀ j, j < i → markerAt t j = false := by
  unfold grFind at hg
  rw [Option.map_eq_some'] at hg
  obtain ⟨j, hj, hpair⟩ := hg
  have hji : j = i := congrArg Prod.fst hpair
  subst hji
  have hds : markerDigits t j = ds := congrArg Prod.snd hpair
  obtain ⟨h1, _, h3⟩ := findLeast_eq_some hj
  exact ⟨h1, hds.symm, h3⟩

/-- A marker match yields a non-empty all-digit capture. -/
theorem markerDigits_of_core {t : PyStr} {i : Nat}
    (hcore : markerCoreAt t i = true) :
    markerDigits t i ≠ [] ∧ ∀ c ∈ markerDigits t i, pyIsDigit c = true := by
  unfold markerCoreAt at hcore
  cases htj : t.drop i with
  | nil => rw [htj] at hcore; simp at hcore
  | cons g t2 =>
    cases t2 with
    | nil => rw [htj] at hcore; simp at hcore
    | cons r t3 =>
      cases t3 with
      | nil => rw [htj] at hcore; simp at hcore
      | cons d t4 =>
        rw [htj] at hcore
        simp only [Bool.and_eq_true, Bool.not_eq_true'] at hcore
        have hrest : t.drop (i + 3) = t4 := by
          have h3 : t.drop (i + 3) = (t.drop i).drop 3 := by
            rw [List.drop_drop]
          rw [h3, htj]
          rfl
        have hds : markerDigits t i = (t4.dropWhile pyIsSpace).takeWhile pyIsDigit := by
          unfold markerDigits
          rw [hrest]
        constructor
        · rw [hds]
          intro hemp
          rw [hemp] at hcore
          simp at hcore
        · intro c hc
          rw [hds] at hc
          exact List.mem_takeWhile_imp hc

/-- C10: `parse_info_slot` is total (it is a Lean function); the empty
input yields three empty strings; and the group component is always either
empty or a non-empty string of decimal digits. -/
theorem c10_group_invariant :
    parse_info_slot [] = ([], [], []) ∧
    ∀ info : PyStr,
      (parse_info_slot info).2.1 = [] ∨
      ((parse_info_slot info).2.1 ≠ [] ∧
        ∀ c ∈ (parse_info_slot info).2.1, pyIsDigit c = true) := by
  refine ⟨rfl, ?_⟩
  intro info
  cases info with
  | nil => left; rfl
  | cons a rest =>
    rw [parse_info_slot_cons]
    cases hg : grFind (pyStrip ((a :: rest).map nbspToSpace)) with
    | none => left; rfl
    | some pr =>
      obtain ⟨i, ds⟩ := pr
      obtain ⟨hm, hds, _⟩ := grFind_some hg
      have hcore : markerCoreAt (pyStrip ((a :: rest).map nbspToSpace)) i = true :=
        (Bool.and_eq_true_iff.mp hm).2
      obtain ⟨hne, hdig⟩ := markerDigits_of_core hcore
      right
      subst hds
      exact ⟨hne, hdig⟩

theorem c10_group_invariant_witness :
    (parse_info_slot ("CWL, gr. 12 (x)").data).2.1 = [] ∨
    ((parse_info_slot ("CWL, gr. 12 (x)").data).2.1 ≠ [] ∧
      ∀ c ∈ (parse_info_slot ("CWL, gr. 12 (x)").data).2.1, pyIsDigit c = true) :=
  c10_group_invariant.2 (("CWL, gr. 12 (x)").data)

/-! ## Claim C5: day labels -/

theorem mem_scrapeAux {s : Nat} {ds : List DayBlock} {j : Nat} (hj : j < ds.length)
    {ev : Event} (hev : ev ∈ processDay (s + j) (ds.get ⟨j, hj⟩)) :
    ev ∈ scrapeAux s ds := by
  induction ds generalizing s j with
  | nil => simp at hj
  | cons d rest ih =>
    cases j with
    | zero =>
      exact List.mem_append_left _ (by simpa using hev)
    | succ j' =>
      refine List.mem_append_right _ (@ih (s + 1) j' (by simpa using hj) ?_)
      have : s + 1 + j' = s + (j' + 1) := by omega
      rw [this]
      exact hev

/-- C5: the event records produced from the `i`-th day container all carry
the `i`-th fixed weekday label, or `"Day N"` with `N = i + 1` once the
fixed labels are exhausted, overridden by the text of an `h4` heading in
the container's parent when present; and those records appear in the
output of `scrape_timetable`. -/
theorem c5_day_labels (days : List DayBlock) (i : Nat) (hi : i < days.length)
    (e : Event) (he : e ∈ processDay i (days.get ⟨i, hi⟩)) :
    e ∈ scrape_timetable days ∧
    e.day = match (days.get ⟨i, hi⟩).parentH4 with
      | some t => pyStrip t
      | none =>
        if h : i < dayNames.length then dayNames.get ⟨i, h⟩
        else ("Day ").data ++ natToDigits (i + 1) := by
  constructor
  · have := @mem_scrapeAux 0 days i hi e (by simpa using he)
    simpa [scrape_timetable] using this
  · simp only [processDay] at he
    obtain ⟨en, _, rfl⟩ := List.mem_map.mp he
    rfl

theorem c5_day_labels_witness :
    (entryToEvent (pyStrip (("Hdr").data)) sampleEntry ∈
      scrape_timetable [sampleDay]) ∧
    (entryToEvent (pyStrip (("Hdr").data)) sampleEntry).day =
      pyStrip (("Hdr").data) :=
  c5_day_labels [sampleDay] 0 (by decide) _ (by decide)

/-! ## Claim C9: batch failure tolerance -/

/-- C9: the batch loop processes every entry (one report per entry, in
order, also after a failure), a failed entry reports its failure message,
is not counted as a success and writes no output file, the final line is
the `Built ok/total` tally, and the process exit code is 0. -/
theorem c9_batch_tolerance (outDir : PyStr)
    (pre post : List (PyStr × PyStr × EntryOutcome)) (p y : PyStr)
    (o : EntryOutcome) (ho : o ≠ EntryOutcome.ok) :
    (main_model outDir (pre ++ (p, y, o) :: post)).reports =
      pre.map (fun t => runEntry t.1 t.2.1 t.2.2) ++
        runEntry p y o :: post.map (fun t => runEntry t.1 t.2.1 t.2.2) ∧
    (main_model outDir (pre ++ (p, y, o) :: post)).reports.length =
      (pre ++ (p, y, o) :: post).length ∧
    (runEntry p y o).succeeded = false ∧
    (runEntry p y o).wrote = none ∧
    (runEntry p y o).messages ≠ [] ∧
    (∀ m, o = EntryOutcome.fetchErr m →
      (runEntry p y o).messages = [("  Fetch failed: ").data ++ m]) ∧
    (∀ m, o = EntryOutcome.scrapeErr m →
      (runEntry p y o).messages = [("  Scrape failed: ").data ++ m]) ∧
    (main_model outDir (pre ++ (p, y, o) :: post)).finalLine =
      ("Built ").data ++
        natToDigits ((pre ++ (p, y, o) :: post).countP
          (fun t => t.2.2 = EntryOutcome.ok)) ++ ("/").data ++
        natToDigits (pre ++ (p, y, o) :: post).length ++
        (" timetables in ").data ++ outDir ∧
    (main_model outDir (pre ++ (p, y, o) :: post)).exitCode = 0 := by
  have hne : (pre ++ (p, y, o) :: post).isEmpty = false := by
    simp [List.isEmpty_iff]
  have hcount :
      ((pre ++ (p, y, o) :: post).map
        (fun t => runEntry t.1 t.2.1 t.2.2)).countP (fun r => r.succeeded) =
      (pre ++ (p, y, o) :: post).countP (fun t => t.2.2 = EntryOutcome.ok) := by
    rw [List.countP_map]
    apply List.countP_congr
    intro x _
    cases hx : x.2.2 <;> simp [runEntry, fetch_and_build, hx]
  refine ⟨?_, ?_, ?_, ?_, ?_, ?_, ?_, ?_, ?_⟩
  · simp [main_model, hne]
  · simp [main_model, hne]
  · cases o with
    | fetchErr m => simp [runEntry, fetch_and_build]
    | scrapeErr m => simp [runEntry, fetch_and_build]
    | ok => exact absurd rfl ho
  · cases o with
    | fetchErr m => simp [runEntry, fetch_and_build]
    | scrapeErr m => simp [runEntry, fetch_and_build]
    | ok => exact absurd rfl ho
  · cases o with
    | fetchErr m => simp [runEntry, fetch_and_build]
    | scrapeErr m => simp [runEntry, fetch_and_build]
    | ok => exact absurd rfl ho
  · intro m hm
    subst hm
    simp [runEntry, fetch_and_build]
  · intro m hm
    subst hm
    simp [runEntry, fetch_and_build]
  · simp only [main_model, hne, Bool.false_eq_true, if_false]
    rw [hcount]
  · simp [main_model, hne]

theorem c9_batch_tolerance_witness :
    (main_model (("dist").data)
        [(("tele").data, ("y1").data, EntryOutcome.fetchErr (("boom").data))]).finalLine =
      ("Built ").data ++
        natToDigits (([(("tele").data, ("y1").data,
            EntryOutcome.fetchErr (("boom").data))]).countP
          (fun t => t.2.2 = EntryOutcome.ok)) ++ ("/").data ++
        natToDigits ([(("tele").data, ("y1").data,
          EntryOutcome.fetchErr (("boom").data))]).length ++
        (" timetables in ").data ++ ("dist").data ∧
    (main_model (("dist").data)
        [(("tele").data, ("y1").data, EntryOutcome.fetchErr (("boom").data))]).exitCode = 0 ∧
    (runEntry (("tele").data) (("y1").data)
      (EntryOutcome.fetchErr (("boom").data))).wrote = none := by
  have h := c9_batch_tolerance (("dist").data) [] []
    (("tele").data) (("y1").data) (EntryOutcome.fetchErr (("boom").data)) (by simp)
  exact ⟨h.2.2.2.2.2.2.2.1, h.2.2.2.2.2.2.2.2, h.2.2.2.1⟩

/-! ## Claim C3: filename slugs -/

/-- C3 counterexample: the claim says runs of replacement underscores are
collapsed, but `slug` replaces each non-word character by its own
underscore: two adjacent spaces yield `"a__b"`, not the collapsed
`"a_b"`. -/
theorem c3_counterexample :
    slug (("a  b").data) = ("a__b").data ∧
    slug (("a  b").data) ≠ ("a_b").data := by
  exact ⟨by decide, by decide⟩

theorem pyLowerChar_not_upper (x : Char) : ¬ latinUpper (pyLowerChar x) := by
  unfold pyLowerChar
  by_cases h1 : 65 ≤ x.toNat ∧ x.toNat ≤ 90
  · rw [if_pos h1]
    intro hu
    unfold latinUpper at hu
    rw [char_toNat_ofNat_of_lt (by omega)] at hu
    omega
  rw [if_neg h1]
  by_cases h2 : 192 ≤ x.toNat ∧ x.toNat ≤ 222 ∧ x.toNat ≠ 215
  · rw [if_pos h2]
    intro hu
    unfold latinUpper at hu
    rw [char_toNat_ofNat_of_lt (by omega)] at hu
    omega
  rw [if_neg h2]
  by_cases h3 : 256 ≤ x.toNat ∧ x.toNat ≤ 310 ∧ x.toNat % 2 = 0 ∧ x.toNat ≠ 304
  · rw [if_pos h3]
    intro hu
    unfold latinUpper at hu
    rw [char_toNat_ofNat_of_lt (by omega)] at hu
    omega
  rw [if_neg h3]
  by_cases h4 : 313 ≤ x.toNat ∧ x.toNat ≤ 327 ∧ x.toNat % 2 = 1
  · rw [if_pos h4]
    intro hu
    unfold latinUpper at hu
    rw [char_toNat_ofNat_of_lt (by omega)] at hu
    omega
  rw [if_neg h4]
  by_cases h5 : 330 ≤ x.toNat ∧ x.toNat ≤ 374 ∧ x.toNat % 2 = 0
  · rw [if_pos h5]
    intro hu
    unfold latinUpper at hu
    rw [char_toNat_ofNat_of_lt (by omega)] at hu
    omega
  rw [if_neg h5]
  by_cases h6 : x.toNat = 376
  · rw [if_pos h6]
    intro hu
    unfold latinUpper at hu
    rw [char_toNat_ofNat_of_lt (by omega)] at hu
    omega
  rw [if_neg h6]
  by_cases h7 : 377 ≤ x.toNat ∧ x.toNat ≤ 381 ∧ x.toNat % 2 = 1
  · rw [if_pos h7]
    intro hu
    unfold latinUpper at hu
    rw [char_toNat_ofNat_of_lt (by omega)] at hu
    omega
  rw [if_neg h7]
  intro hu
  unfold latinUpper at hu
  omega

/-- C3 (amended): each character of `s.strip().lower()` that is neither a
word character nor a hyphen is replaced by one underscore each (runs are
not collapsed), leading/trailing underscores are stripped, and an empty
result defaults to `"page"`; hence the slug contains only word characters
and hyphens (underscores being word characters), is lowercase — it
contains no uppercase letter, non-ASCII letters such as `Ś` being
lowercased too — and is never empty; the batch output filename is the two
slugs joined by an underscore with the `.html` extension. -/
theorem c3_slug_amended :
    (∀ s : PyStr, slug s ≠ [] ∧
      (∀ c ∈ slug s, pyIsWord c = true ∨ c = '-') ∧
      (∀ c ∈ slug s, ¬ latinUpper c)) ∧
    slug [] = ("page").data ∧
    slug (("Teleinformatyka").data) = ("teleinformatyka").data ∧
    slug (("I Stopień, 6 Sem").data) = ("i_stopień__6_sem").data ∧
    slug (("Ś").data) = ("ś").data ∧
    ∀ p y : PyStr, output_filename p y = slug p ++ '_' :: slug y ++ (".html").data := by
  refine ⟨?_, by decide, by decide, by decide, by decide, fun p y => rfl⟩
  intro s
  have hchar : ∀ c ∈ ((pyStrip s).map pyLowerChar).map
      (fun x => if pyIsWord x || x = '-' then x else '_'),
      (pyIsWord c = true ∨ c = '-') ∧ ¬ latinUpper c := by
    intro c hc
    obtain ⟨x, hx, hxc⟩ := List.mem_map.mp hc
    obtain ⟨x0, _, hx0⟩ := List.mem_map.mp hx
    by_cases hw : pyIsWord x = true ∨ x = '-'
    · have hkeep : (if pyIsWord x || x = '-' then x else '_') = x := by
        rcases hw with hw | hw <;> simp [hw]
      rw [hkeep] at hxc
      subst hxc
      refine ⟨hw, ?_⟩
      rw [← hx0]
      exact pyLowerChar_not_upper x0
    · have hcond : (pyIsWord x || x = '-') = false := by
        rcases hor : (pyIsWord x || x = '-') with _ | _
        · rfl
        · exact absurd (by simpa using hor) hw
      rw [hcond] at hxc
      simp at hxc
      subst hxc
      refine ⟨Or.inl (by decide), ?_⟩
      unfold latinUpper
      decide
  simp only [slug]
  split
  · refine ⟨by decide, ?_, ?_⟩
    · intro c hc
      simp [List.mem_cons] at hc
      rcases hc with rfl | rfl | rfl | rfl <;> exact Or.inl (by decide)
    · intro c hc
      simp [List.mem_cons] at hc
      rcases hc with rfl | rfl | rfl | rfl <;> (unfold latinUpper; decide)
  · next hemp =>
    refine ⟨?_, ?_, ?_⟩
    · intro hnil
      rw [hnil] at hemp
      exact hemp rfl
    · intro c hc
      exact (hchar c ((List.dropWhile_sublist _).mem
        (mem_of_mem_dropTrailingWhile hc))).1
    · intro c hc
      exact (hchar c ((List.dropWhile_sublist _).mem
        (mem_of_mem_dropTrailingWhile hc))).2

theorem c3_slug_amended_witness :
    slug (("x").data) ≠ [] ∧
    (∀ c ∈ slug (("x").data), pyIsWord c = true ∨ c = '-') ∧
    (∀ c ∈ slug (("x").data), ¬ latinUpper c) :=
  c3_slug_amended.1 (("x").data)

/-! ## Claim C4: metadata synthesis -/

theorem lexLe_total : ∀ a b : PyStr, lexLe a b = true ∨ lexLe b a = true := by
  intro a
  induction a with
  | nil => intro b; left; rfl
  | cons x xs ih =>
    intro b
    cases b with
    | nil => right; rfl
    | cons y ys =>
      by_cases hxy : x = y
      · subst hxy
        rcases ih ys with h | h
        · left; simpa [lexLe] using h
        · right; simpa [lexLe] using h
      · have hyx : ¬y = x := fun h => hxy h.symm
        have hneq : x.toNat ≠ y.toNat := fun h => hxy (char_toNat_inj h)
        simp [lexLe, hxy, hyx]
        omega

theorem lexLe_trans : ∀ a b c : PyStr,
    lexLe a b = true → lexLe b c = true → lexLe a c = true := by
  intro a
  induction a with
  | nil => intro b c _ _; rfl
  | cons x xs ih =>
    intro b c hab hbc
    cases b with
    | nil => simp [lexLe] at hab
    | cons y ys =>
      cases c with
      | nil => simp [lexLe] at hbc
      | cons z zs =>
        by_cases hxy : x = y
        · subst hxy
          by_cases hyz : x = z
          · subst hyz
            simp [lexLe] at hab hbc ⊢
            exact ih ys zs hab hbc
          · simp [lexLe, hyz] at hbc ⊢
            exact hbc
        · by_cases hyz : y = z
          · subst hyz
            simp [lexLe, hxy] at hab ⊢
            exact hab
          · simp [lexLe, hxy, hyz] at hab hbc
            have hxz : ¬x = z := by
              intro he
              subst he
              omega
            simp [lexLe, hxz]
            omega

theorem lexLe_antisymm : ∀ a b : PyStr,
    lexLe a b = true → lexLe b a = true → a = b := by
  intro a
  induction a with
  | nil =>
    intro b h1 h2
    cases b with
    | nil => rfl
    | cons y ys => simp [lexLe] at h2
  | cons x xs ih =>
    intro b h1 h2
    cases b with
    | nil => simp [lexLe] at h1
    | cons y ys =>
      by_cases hxy : x = y
      · subst hxy
        simp [lexLe] at h1 h2
        rw [ih ys h1 h2]
      · have hyx : ¬y = x := fun h => hxy h.symm
        simp [lexLe, hxy, hyx] at h1 h2
        exact absurd h2 (by omega)

theorem lookupA_metaListAux {l : List PyStr} {s : PyStr} (hs : s ∈ l) (i : Nat) :
    lookupA s (metaListAux i l) = some (mkMeta s (i + idxOf s l)) := by
  induction l generalizing i with
  | nil => cases hs
  | cons b rest ih =>
    by_cases heq : s = b
    · subst heq
      simp [metaListAux, lookupA, idxOf]
    · have hs' : s ∈ rest := by
        rcases List.mem_cons.mp hs with h | h
        · exact absurd h heq
        · exact h
      simp only [metaListAux, lookupA, if_neg heq, idxOf]
      rw [ih hs' (i + 1)]
      have harith : i + 1 + idxOf s rest = i + (idxOf s rest + 1) := by omega
      rw [harith]

/-- C4: each distinct non-empty subject is mapped to a record whose short
label keeps the subject when at most 20 characters and otherwise takes its
first 17 characters plus `"..."`, whose color is the palette entry at the
subject's rank in the lexicographically sorted distinct-subject list
modulo the palette size, and whose remaining fields are the `"?"`
placeholder; and the metadata depends only on the set of non-empty
subjects, so two runs on the same subject set agree. -/
theorem c4_subject_meta (events : List Event) (s : PyStr) (hs : s ≠ [])
    (hmem : s ∈ events.map Event.subject) :
    lookupA s (build_meta_data events) =
      some { ects := ("?").data, status := ("?").data, verify := ("?").data,
             short := if s.length ≤ 20 then s else s.take 17 ++ ("...").data,
             color := SUBJECT_COLORS.getD
               (idxOf s (sortedSubjects events) % SUBJECT_COLORS.length) [] } ∧
    ∀ events' : List Event,
      (∀ x : PyStr, x ∈ (events.map Event.subject).filter (fun v => !v.isEmpty) ↔
        x ∈ (events'.map Event.subject).filter (fun v => !v.isEmpty)) →
      build_meta_data events = build_meta_data events' := by
  constructor
  · have hfil : s ∈ (events.map Event.subject).filter (fun v => !v.isEmpty) := by
      refine List.mem_filter.mpr ⟨hmem, ?_⟩
      cases s with
      | nil => exact absurd rfl hs
      | cons a r => rfl
    have hded : s ∈ ((events.map Event.subject).filter (fun v => !v.isEmpty)).dedup :=
      List.mem_dedup.mpr hfil
    have hsorted : s ∈ sortedSubjects events := by
      unfold sortedSubjects
      exact (List.perm_insertionSort (fun a b => lexLe a b = true) _).mem_iff.mpr hded
    have := lookupA_metaListAux hsorted 0
    unfold build_meta_data
    rw [this]
    simp [mkMeta, shortOf]
  · intro events' hiff
    unfold build_meta_data sortedSubjects
    have h1 := List.nodup_dedup ((events.map Event.subject).filter (fun v => !v.isEmpty))
    have h2 := List.nodup_dedup ((events'.map Event.subject).filter (fun v => !v.isEmpty))
    have hp : ((events.map Event.subject).filter (fun v => !v.isEmpty)).dedup.Perm
        ((events'.map Event.subject).filter (fun v => !v.isEmpty)).dedup := by
      refine (List.perm_ext_iff_of_nodup h1 h2).mpr ?_
      intro a
      rw [List.mem_dedup, List.mem_dedup]
      exact hiff a
    have hsorteq :
        List.insertionSort (fun a b => lexLe a b = true)
          ((events.map Event.subject).filter (fun v => !v.isEmpty)).dedup =
        List.insertionSort (fun a b => lexLe a b = true)
          ((events'.map Event.subject).filter (fun v => !v.isEmpty)).dedup := by
      refine @List.eq_of_perm_of_sorted PyStr (fun a b => lexLe a b = true)
        ⟨fun a b h1' h2' => lexLe_antisymm a b h1' h2'⟩ _ _ ?_ ?_ ?_
      · exact ((List.perm_insertionSort _ _).trans hp).trans
          (List.perm_insertionSort _ _).symm
      · exact @List.sorted_insertionSort PyStr (fun a b => lexLe a b = true) _
          ⟨fun a b => lexLe_total a b⟩ ⟨fun a b c hab hbc => lexLe_trans a b c hab hbc⟩ _
      · exact @List.sorted_insertionSort PyStr (fun a b => lexLe a b = true) _
          ⟨fun a b => lexLe_total a b⟩ ⟨fun a b c hab hbc => lexLe_trans a b c hab hbc⟩ _
    rw [hsorteq]

theorem c4_subject_meta_witness :
    lookupA (("Algo").data) (build_meta_data [sampleEvent]) =
      some { ects := ("?").data, status := ("?").data, verify := ("?").data,
             short := if (("Algo").data).length ≤ 20 then ("Algo").data
               else (("Algo").data).take 17 ++ ("...").data,
             color := SUBJECT_COLORS.getD
               (idxOf (("Algo").data) (sortedSubjects [sampleEvent]) %
                 SUBJECT_COLORS.length) [] } :=
  (c4_subject_meta [sampleEvent] (("Algo").data) (by decide) (by decide)).1

/-! ## Claim C2: info text without marker and comma -/

theorem hasGr_cons {t : PyStr} (h : hasGr t = true) (c : Char) :
    hasGr (c :: t) = true := by
  cases t with
  | nil => simp [hasGr] at h
  | cons a t2 =>
    cases t2 with
    | nil => simp [hasGr] at h
    | cons b t3 =>
      simp [hasGr, h]

theorem hasGr_append_left {b : PyStr} (h : hasGr b = true) (a : PyStr) :
    hasGr (a ++ b) = true := by
  induction a with
  | nil => simpa using h
  | cons c t ih => exact hasGr_cons ih c

theorem hasGr_append_right {a : PyStr} (h : hasGr a = true) (b : PyStr) :
    hasGr (a ++ b) = true := by
  induction a with
  | nil => simp [hasGr] at h
  | cons x t ih =>
    cases t with
    | nil => simp [hasGr] at h
    | cons y t2 =>
      cases t2 with
      | nil => simp [hasGr] at h
      | cons z t3 =>
        rw [hasGr] at h
        rcases Bool.or_eq_true_iff.mp h with h1 | h1
        · show hasGr (x :: y :: z :: (t3 ++ b)) = true
          rw [hasGr, h1]
          rfl
        · have := ih h1
          show hasGr (x :: y :: z :: (t3 ++ b)) = true
          rw [hasGr]
          have h2 : hasGr (y :: z :: (t3 ++ b)) = true := this
          rw [h2]
          simp

theorem hasGr_of_core {t : PyStr} {j : Nat} (h : markerCoreAt t j = true) :
    hasGr t = true := by
  induction j generalizing t with
  | zero =>
    unfold markerCoreAt at h
    cases t with
    | nil => simp at h
    | cons g t2 =>
      cases t2 with
      | nil => simp at h
      | cons r t3 =>
        cases t3 with
        | nil => simp at h
        | cons d t4 =>
          simp only [List.drop_zero] at h
          simp only [Bool.and_eq_true] at h
          rw [hasGr]
          rw [Bool.or_eq_true_iff]
          left
          simp only [Bool.and_eq_true]
          exact ⟨⟨h.1.1.1, h.1.1.2⟩, h.1.2⟩
  | succ j ih =>
    cases t with
    | nil =>
      unfold markerCoreAt at h
      simp at h
    | cons c t' =>
      have h' : markerCoreAt t' j = true := by
        unfold markerCoreAt at h ⊢
        have hd : (c :: t').drop (j + 1) = t'.drop j := rfl
        rw [hd] at h
        exact h
      exact hasGr_cons (ih h') c

theorem nbsp_eq_char {c d : Char} (hd : d ≠ ' ') (h : nbspToSpace c = d) : c = d := by
  unfold nbspToSpace at h
  split at h
  · exact absurd h.symm hd
  · exact h

theorem hasGr_map_nbsp {l : PyStr} (h : hasGr (l.map nbspToSpace) = true) :
    hasGr l = true := by
  induction l with
  | nil => simp [hasGr] at h
  | cons x t ih =>
    cases t with
    | nil => simp [List.map, hasGr] at h
    | cons y t2 =>
      cases t2 with
      | nil => simp [List.map, hasGr] at h
      | cons z t3 =>
        rw [List.map, List.map, List.map, hasGr] at h
        rcases Bool.or_eq_true_iff.mp h with h1 | h1
        · simp only [Bool.and_eq_true, Bool.or_eq_true_iff] at h1
          obtain ⟨⟨hx, hy⟩, hz⟩ := h1
          have hx' : x = 'g' ∨ x = 'G' := by
            rcases hx with hx | hx
            · exact Or.inl (nbsp_eq_char (by decide) (by simpa using hx))
            · exact Or.inr (nbsp_eq_char (by decide) (by simpa using hx))
          have hy' : y = 'r' ∨ y = 'R' := by
            rcases hy with hy | hy
            · exact Or.inl (nbsp_eq_char (by decide) (by simpa using hy))
            · exact Or.inr (nbsp_eq_char (by decide) (by simpa using hy))
          have hz' : z = '.' := nbsp_eq_char (by decide) (by simpa using hz)
          rw [hasGr, Bool.or_eq_true_iff]
          left
          simp only [Bool.and_eq_true, Bool.or_eq_true_iff]
          refine ⟨⟨?_, ?_⟩, by simp [hz']⟩
          · rcases hx' with rfl | rfl <;> simp
          · rcases hy' with rfl | rfl <;> simp
        · have h2 : hasGr ((y :: z :: t3).map nbspToSpace) = true := h1
          exact hasGr_cons (ih h2) x

theorem dropTrailingWhile_append_eq (p : Char → Bool) (l : PyStr) :
    dropTrailingWhile p l ++ (l.reverse.takeWhile p).reverse = l := by
  unfold dropTrailingWhile
  rw [← List.reverse_append, List.takeWhile_append_dropWhile, List.reverse_reverse]

theorem hasGr_of_dropTrailingWhile {p : Char → Bool} {l : PyStr}
    (h : hasGr (dropTrailingWhile p l) = true) : hasGr l = true := by
  have := hasGr_append_right h ((l.reverse.takeWhile p).reverse)
  rw [dropTrailingWhile_append_eq] at this
  exact this

theorem hasGr_of_dropWhile {p : Char → Bool} {l : PyStr}
    (h : hasGr (l.dropWhile p) = true) : hasGr l = true := by
  have := hasGr_append_left h (l.takeWhile p)
  rw [List.takeWhile_append_dropWhile] at this
  exact this

theorem hasGr_of_pyStrip {l : PyStr} (h : hasGr (pyStrip l) = true) :
    hasGr l = true :=
  hasGr_of_dropWhile (hasGr_of_dropTrailingWhile h)

theorem mem_map_nbsp {c : Char} (hc : c ≠ ' ') {l : PyStr}
    (h : c ∈ l.map nbspToSpace) : c ∈ l := by
  obtain ⟨x, hx, hfx⟩ := List.mem_map.mp h
  have := nbsp_eq_char hc hfx
  rw [← this]
  exact hx

theorem takeWhile_eq_self_of_all {p : Char → Bool} {l : PyStr}
    (h : ∀ c ∈ l, p c = true) : l.takeWhile p = l := by
  induction l with
  | nil => rfl
  | cons c t ih =>
    rw [List.takeWhile_cons, h c (List.mem_cons_self c t)]
    rw [ih (fun x hx => h x (List.mem_cons_of_mem c hx))]
    simp

theorem dropWhile_cons_head_false {p : Char → Bool} {l : PyStr} {c : Char}
    {r : PyStr} (h : l.dropWhile p = c :: r) : p c = false := by
  induction l with
  | nil => simp at h
  | cons a t ih =>
    rw [List.dropWhile_cons] at h
    split at h
    · exact ih h
    · next hpa =>
      cases h
      exact Bool.not_eq_true _ |>.mp hpa

theorem dropWhile_idem (p : Char → Bool) (l : PyStr) :
    (l.dropWhile p).dropWhile p = l.dropWhile p := by
  cases hd : l.dropWhile p with
  | nil => rfl
  | cons c r =>
    rw [List.dropWhile_cons, dropWhile_cons_head_false hd]
    simp

theorem pyStrip_idem (l : PyStr) : pyStrip (pyStrip l) = pyStrip l := by
  unfold pyStrip
  set A := l.dropWhile pyIsSpace with hA
  have h1 : (dropTrailingWhile pyIsSpace A).dropWhile pyIsSpace =
      dropTrailingWhile pyIsSpace A := by
    cases hB : dropTrailingWhile pyIsSpace A with
    | nil => rfl
    | cons c r =>
      have hhead : ∃ rest, A = c :: rest := by
        have hdec := dropTrailingWhile_append_eq pyIsSpace A
        rw [hB] at hdec
        exact ⟨r ++ (A.reverse.takeWhile pyIsSpace).reverse, by
          rw [← List.cons_append]; exact hdec.symm⟩
      obtain ⟨rest, hrest⟩ := hhead
      have hc : pyIsSpace c = false := by
        apply @dropWhile_cons_head_false pyIsSpace l c rest
        rw [← hA, hrest]
      rw [List.dropWhile_cons, hc]
      simp
  rw [h1]
  unfold dropTrailingWhile
  rw [List.reverse_reverse, dropWhile_idem]

theorem findLeast_none_of_bounded {p : Nat → Bool} {bound : Nat}
    (h : ∀ j, j < bound → p j = false) : findLeast p bound = none := by
  cases heq : findLeast p bound with
  | none => rfl
  | some i =>
    obtain ⟨h1, h2, _⟩ := findLeast_eq_some heq
    rw [h i h2] at h1
    exact absurd h1 (by simp)

theorem roomAt_beyond {t : PyStr} {j : Nat} (h : t.length ≤ j) :
    roomAt t j = false := by
  unfold roomAt
  have hd : t[j]? = none := List.getElem?_eq_none h
  rw [hd]
  simp

theorem roomFind_none {t : PyStr} (h : roomFind t = none) :
    ∀ j, roomAt t j = false := by
  intro j
  rcases Nat.lt_or_ge j (t.length + 1) with hj | hj
  · exact findLeast_eq_none h j hj
  · exact roomAt_beyond (by omega)

/-- C2 counterexample: on `"W (105)"` (no group marker, no comma) the room
field is the parenthesized content `"105"`, not the empty string the claim
asserts. -/
theorem c2_counterexample :
    parse_info_slot (("W (105)").data) =
      ((("W (105)").data), [], (("105").data)) ∧
    ((("105").data) : PyStr) ≠ [] := by
  exact ⟨by decide, by decide⟩

/-- C2 (amended): for every info text containing no `"gr."` marker
(case-insensitively) and no comma, the session-type field is the whole
string with non-breaking spaces normalized to spaces and surrounding
whitespace trimmed, and the group field is empty; the room field is the
trimmed content of the leftmost parenthesized group with non-empty content
before the closing parenthesis when such a group exists, and is empty when
none exists (so the room is extracted regardless of marker or comma, and a
bare `()` yields an empty room). -/
theorem c2_plain_text (info : PyStr) (hgr : hasGr info = false)
    (hc : (',' ∈ info) → False) :
    (parse_info_slot info).1 = pyStrip (info.map nbspToSpace) ∧
    (parse_info_slot info).2.1 = [] ∧
    (∀ i, roomFind (pyStrip (info.map nbspToSpace)) = some i →
      roomAt (pyStrip (info.map nbspToSpace)) i = true ∧
      (∀ j, j < i → roomAt (pyStrip (info.map nbspToSpace)) j = false) ∧
      (parse_info_slot info).2.2 =
        pyStrip (roomContent (pyStrip (info.map nbspToSpace)) i)) ∧
    (roomFind (pyStrip (info.map nbspToSpace)) = none →
      (∀ j, roomAt (pyStrip (info.map nbspToSpace)) j = false) ∧
      (parse_info_slot info).2.2 = []) := by
  cases info with
  | nil =>
    refine ⟨rfl, rfl, ?_, fun h => ⟨roomFind_none h, rfl⟩⟩
    intro i h
    have hn : roomFind (pyStrip ((([] : PyStr)).map nbspToSpace)) = none := by decide
    rw [hn] at h
    exact Option.noConfusion h
  | cons a rest =>
    have hmarker : ∀ j, markerAt (pyStrip ((a :: rest).map nbspToSpace)) j = false := by
      intro j
      cases hm : markerAt (pyStrip ((a :: rest).map nbspToSpace)) j with
      | false => rfl
      | true =>
        have hcore := (Bool.and_eq_true_iff.mp hm).2
        have := hasGr_map_nbsp (hasGr_of_pyStrip (hasGr_of_core hcore))
        rw [hgr] at this
        exact absurd this (by simp)
    have hg : grFind (pyStrip ((a :: rest).map nbspToSpace)) = none := by
      unfold grFind
      rw [findLeast_none_of_bounded (fun j _ => hmarker j)]
      rfl
    have hcomma : ∀ c ∈ pyStrip ((a :: rest).map nbspToSpace), (c = ',') = False := by
      intro c hcm
      by_cases hcc : c = ','
      · subst hcc
        exact absurd (mem_map_nbsp (by decide) (mem_of_mem_pyStrip hcm)) hc
      · simp [hcc]
    have htw : (pyStrip ((a :: rest).map nbspToSpace)).takeWhile
        (fun c => c ≠ ',') = pyStrip ((a :: rest).map nbspToSpace) := by
      apply takeWhile_eq_self_of_all
      intro c hcm
      simp [hcomma c hcm]
    refine ⟨?_, ?_, ?_, ?_⟩
    · rw [parse_info_slot_cons, hg]
      show pyStrip _ = _
      rw [htw, pyStrip_idem]
    · rw [parse_info_slot_cons, hg]
    · intro i hr
      obtain ⟨h1, _, h3⟩ := findLeast_eq_some hr
      refine ⟨h1, h3, ?_⟩
      rw [parse_info_slot_cons, hg]
      show roomField _ = _
      unfold roomField
      rw [hr]
    · intro hr
      refine ⟨roomFind_none hr, ?_⟩
      rw [parse_info_slot_cons, hg]
      show roomField _ = _
      unfold roomField
      rw [hr]

theorem c2_plain_text_witness :
    ((parse_info_slot (("W (105)").data)).1 =
      pyStrip ((("W (105)").data).map nbspToSpace) ∧
    (parse_info_slot (("W (105)").data)).2.1 = [] ∧
    (∀ i, roomFind (pyStrip ((("W (105)").data).map nbspToSpace)) = some i →
      roomAt (pyStrip ((("W (105)").data).map nbspToSpace)) i = true ∧
      (∀ j, j < i →
        roomAt (pyStrip ((("W (105)").data).map nbspToSpace)) j = false) ∧
      (parse_info_slot (("W (105)").data)).2.2 =
        pyStrip (roomContent (pyStrip ((("W (105)").data).map nbspToSpace)) i)) ∧
    (roomFind (pyStrip ((("W (105)").data).map nbspToSpace)) = none →
      (∀ j, roomAt (pyStrip ((("W (105)").data).map nbspToSpace)) j = false) ∧
      (parse_info_slot (("W (105)").data)).2.2 = [])) :=
  c2_plain_text (("W (105)").data) (by decide) (by decide)

/-! ## Claim C6: single template substitution -/

theorem subFirst_id {me : PyStr → Option Nat} {repl : PyStr} {s : PyStr}
    (h : ∀ q, q ≤ s.length → me (s.drop q) = none) :
    subFirst me repl s = s := by
  induction s with
  | nil => rfl
  | cons c rest ih =>
    have h0 := h 0 (by omega)
    simp only [List.drop_zero] at h0
    unfold subFirst
    rw [h0]
    have ih2 := ih (fun q hq => by
      have := h (q + 1) (by simpa using Nat.succ_le_succ hq)
      simpa using this)
    rw [ih2]

theorem subFirst_leftmost {me : PyStr → Option Nat} {repl : PyStr} {s : PyStr}
    {p n : Nat} (hnil : me [] = none)
    (hme : me (s.drop p) = some n) (hmin : ∀ q, q < p → me (s.drop q) = none) :
    subFirst me repl s = s.take p ++ repl ++ s.drop (p + n) := by
  induction p generalizing s with
  | zero =>
    cases s with
    | nil => rw [List.drop_nil, hnil] at hme; cases hme
    | cons c rest =>
      simp only [List.drop_zero] at hme
      unfold subFirst
      rw [hme]
      simp
  | succ p ih =>
    cases s with
    | nil => rw [List.drop_nil, hnil] at hme; cases hme
    | cons c rest =>
      have h0 := hmin 0 (Nat.succ_pos p)
      simp only [List.drop_zero] at h0
      unfold subFirst
      rw [h0]
      have hme' : me (rest.drop p) = some n := hme
      have hmin' : ∀ q, q < p → me (rest.drop q) = none :=
        fun q hq => hmin (q + 1) (by omega)
      rw [ih hme' hmin']
      have harr : p + 1 + n = (p + n) + 1 := by omega
      rw [harr]
      rfl

theorem findFirstLen_leftmost {me : PyStr → Option Nat} {s : PyStr}
    {p n : Nat} (hnil : me [] = none)
    (hme : me (s.drop p) = some n) (hmin : ∀ q, q < p → me (s.drop q) = none) :
    findFirstLen me s = some (p, n) := by
  induction p generalizing s with
  | zero =>
    cases s with
    | nil => rw [List.drop_nil, hnil] at hme; cases hme
    | cons c rest =>
      simp only [List.drop_zero] at hme
      unfold findFirstLen
      rw [hme]
  | succ p ih =>
    cases s with
    | nil => rw [List.drop_nil, hnil] at hme; cases hme
    | cons c rest =>
      have h0 := hmin 0 (Nat.succ_pos p)
      simp only [List.drop_zero] at h0
      unfold findFirstLen
      rw [h0]
      have hme' : me (rest.drop p) = some n := hme
      have hmin' : ∀ q, q < p → me (rest.drop q) = none :=
        fun q hq => hmin (q + 1) (by omega)
      rw [ih hme' hmin']
      rfl

/-- C6: each data-block substitution of the renderer touches the template
at most once — the leftmost pattern match alone is replaced, everything
else (including any later match) is copied verbatim — and when the
pattern does not occur the substitution returns the template unchanged
(and, being a Lean function, raises nothing).  Stated for both the
event-array pattern and the metadata pattern. -/
theorem c6_single_substitution (repl : PyStr) (t : PyStr) :
    ((∀ q, q ≤ t.length → matchRaw (t.drop q) = none) →
      subFirst matchRaw repl t = t) ∧
    (∀ p n, matchRaw (t.drop p) = some n →
      (∀ q, q < p → matchRaw (t.drop q) = none) →
      subFirst matchRaw repl t = t.take p ++ repl ++ t.drop (p + n)) ∧
    ((∀ q, q ≤ t.length → matchMeta (t.drop q) = none) →
      subFirst matchMeta repl t = t) ∧
    (∀ p n, matchMeta (t.drop p) = some n →
      (∀ q, q < p → matchMeta (t.drop q) = none) →
      subFirst matchMeta repl t = t.take p ++ repl ++ t.drop (p + n)) :=
  ⟨fun h => subFirst_id h,
   fun _ _ hme hmin => subFirst_leftmost (by decide) hme hmin,
   fun h => subFirst_id h,
   fun _ _ hme hmin => subFirst_leftmost (by decide) hme hmin⟩

theorem c6_single_substitution_witness :
    subFirst matchRaw (("XX").data) (("const rawData = [\nz\n ]; b").data) =
      ((("const rawData = [\nz\n ]; b").data).take 0) ++ (("XX").data) ++
        ((("const rawData = [\nz\n ]; b").data).drop (0 + 23)) ∧
    subFirst matchMeta (("XX").data) (("hello").data) = ("hello").data :=
  ⟨(c6_single_substitution (("XX").data) _).2.1 0 23 (by decide)
      (fun q hq => absurd hq (Nat.not_lt_zero q)),
   (c6_single_substitution (("XX").data) _).2.2.1 (by decide)⟩

/-! ## Claim C1: info-text decomposition -/

/-- C1 counterexample: on `"agr. 1 (x)"` the substring `"gr."` is present
but is preceded by a word character, so the regex `\bgr\.\s*(\d+)` does
not match: the type field is the whole string (no comma), and the group is
empty — not type `"a"` and group `"1"` as the claim's reading predicts. -/
theorem c1_counterexample :
    parse_info_slot (("agr. 1 (x)").data) =
      ((("agr. 1 (x)").data), [], (("x").data)) ∧
    (parse_info_slot (("agr. 1 (x)").data)).2.1 ≠ ("1").data ∧
    (parse_info_slot (("agr. 1 (x)").data)).1 ≠ ("a").data := by
  exact ⟨by decide, by decide, by decide⟩

theorem markerAt_beyond {t : PyStr} {j : Nat} (h : t.length ≤ j) :
    markerAt t j = false := by
  unfold markerAt markerCoreAt
  have hd : t.drop j = [] := List.drop_eq_nil_of_le h
  rw [hd]
  simp

theorem grFind_none {t : PyStr} (h : grFind t = none) :
    ∀ j, markerAt t j = false := by
  intro j
  unfold grFind at h
  have h2 : findLeast (markerAt t) (t.length + 1) = none := by
    cases hf : findLeast (markerAt t) (t.length + 1) with
    | none => rfl
    | some i => rw [hf] at h; simp at h
  rcases Nat.lt_or_ge j (t.length + 1) with hj | hj
  · exact findLeast_eq_none h2 j hj
  · exact markerAt_beyond (by omega)

/-- C1 (amended): writing `t` for the nbsp-normalized, trimmed info text,
the marker is the leftmost word-boundary match of `gr.` (case-insensitive)
followed by optional whitespace and at least one digit; when it exists at
position `i` with digits `ds`, the type is `t` before `i` trimmed of
trailing whitespace and commas, the group is `ds`, and the room is the
trimmed content of the leftmost non-empty parenthesized group (empty when
none exists); without such a marker the type is the substring before the
first comma, trimmed, and the group is empty.  The spec's example
decomposes as stated. -/
theorem c1_info_decomposition (info : PyStr) (hne : info ≠ []) :
    (∀ i ds, grFind (pyStrip (info.map nbspToSpace)) = some (i, ds) →
      markerAt (pyStrip (info.map nbspToSpace)) i = true ∧
      (∀ j, j < i → markerAt (pyStrip (info.map nbspToSpace)) j = false) ∧
      ds = markerDigits (pyStrip (info.map nbspToSpace)) i ∧
      parse_info_slot info =
        (pyStrip (dropTrailingWhile (fun c => c = ',')
          (pyStrip ((pyStrip (info.map nbspToSpace)).take i))), ds,
          roomField (pyStrip (info.map nbspToSpace)))) ∧
    (grFind (pyStrip (info.map nbspToSpace)) = none →
      (∀ j, markerAt (pyStrip (info.map nbspToSpace)) j = false) ∧
      parse_info_slot info =
        (pyStrip ((pyStrip (info.map nbspToSpace)).takeWhile (fun c => c ≠ ',')),
          [], roomField (pyStrip (info.map nbspToSpace)))) ∧
    (∀ i, roomFind (pyStrip (info.map nbspToSpace)) = some i →
      roomAt (pyStrip (info.map nbspToSpace)) i = true ∧
      (∀ j, j < i → roomAt (pyStrip (info.map nbspToSpace)) j = false) ∧
      roomField (pyStrip (info.map nbspToSpace)) =
        pyStrip (roomContent (pyStrip (info.map nbspToSpace)) i)) ∧
    (roomFind (pyStrip (info.map nbspToSpace)) = none →
      (∀ j, roomAt (pyStrip (info.map nbspToSpace)) j = false) ∧
      roomField (pyStrip (info.map nbspToSpace)) = []) ∧
    parse_info_slot (("CWL, gr. 1 (012, bud. B9)").data) =
      ((("CWL").data), (("1").data), (("012, bud. B9").data)) := by
  cases info with
  | nil => exact absurd rfl hne
  | cons a rest =>
    refine ⟨?_, ?_, ?_, ?_, by decide⟩
    · intro i ds hg
      obtain ⟨h1, h2, h3⟩ := grFind_some hg
      refine ⟨h1, h3, h2, ?_⟩
      rw [parse_info_slot_cons, hg]
    · intro hg
      refine ⟨grFind_none hg, ?_⟩
      rw [parse_info_slot_cons, hg]
    · intro i hr
      obtain ⟨h1, _, h3⟩ := findLeast_eq_some hr
      refine ⟨h1, h3, ?_⟩
      unfold roomField
      rw [hr]
    · intro hr
      refine ⟨roomFind_none hr, ?_⟩
      unfold roomField
      rw [hr]

theorem c1_info_decomposition_witness :
    parse_info_slot (("CWL, gr. 1 (012, bud. B9)").data) =
      ((("CWL").data), (("1").data), (("012, bud. B9").data)) :=
  (c1_info_decomposition (("CWL, gr. 1 (012, bud. B9)").data) (by decide)).2.2.2.2

/-! ## Claim C7: render/re-scan round trip -/

theorem matchBlock_isSome_prefix {opener : PyStr} {close : Char} {s : PyStr}
    {n : Nat} (h : matchBlock opener close s = some n) :
    opener.isPrefixOf s = true := by
  unfold matchBlock at h
  by_cases hp : opener.isPrefixOf s = true
  · exact hp
  · rw [if_neg hp] at h
    cases h

theorem matchBlock_none_of_no_pref {opener : PyStr} {close : Char}
    {s : PyStr} (h : opener.isPrefixOf s = false) :
    matchBlock opener close s = none := by
  unfold matchBlock
  rw [h]
  rfl

/-- Characters of a `pyReplaceAux` result come from the subject or the
replacement. -/
theorem mem_pyReplaceAux {needle repl : PyStr} {fuel : Nat} {s : PyStr}
    {c : Char} (h : c ∈ pyReplaceAux needle repl fuel s) :
    c ∈ s ∨ c ∈ repl := by
  induction fuel generalizing s with
  | zero =>
    have hz : pyReplaceAux needle repl 0 s = s := by cases s <;> rfl
    rw [hz] at h
    exact Or.inl h
  | succ f ih =>
    cases s with
    | nil => exact Or.inl h
    | cons a rest =>
      unfold pyReplaceAux at h
      split at h
      · rcases List.mem_append.mp h with h1 | h1
        · exact Or.inr h1
        · rcases ih h1 with h2 | h2
          · exact Or.inl ((List.drop_sublist _ _).mem h2)
          · exact Or.inr h2
      · rcases List.mem_cons.mp h with h1 | h1
        · exact Or.inl (h1 ▸ List.mem_cons_self a rest)
        · rcases ih h1 with h2 | h2
          · exact Or.inl (List.mem_cons_of_mem a h2)
          · exact Or.inr h2

theorem mem_escq {s : PyStr} {c : Char} (h : c ∈ escq s) :
    c ∈ s ∨ c = Char.ofNat 92 ∨ c = Char.ofNat 34 := by
  rcases mem_pyReplaceAux h with h1 | h1
  · exact Or.inl h1
  · rcases List.mem_cons.mp h1 with h2 | h2
    · exact Or.inr (Or.inl h2)
    · rcases List.mem_cons.mp h2 with h3 | h3
      · exact Or.inr (Or.inr h3)
      · cases h3

theorem wsRun_append {pre : PyStr} (hpre : ∀ c ∈ pre, pyIsSpace c = true)
    {c : Char} (hc : pyIsSpace c = false) (X : PyStr) :
    wsRun (pre ++ c :: X) = pre.length := by
  induction pre with
  | nil =>
    unfold wsRun
    simp [List.takeWhile_cons, hc]
  | cons a t ih =>
    unfold wsRun at ih ⊢
    rw [List.cons_append, List.takeWhile_cons, hpre a (List.mem_cons_self a t)]
    simp only [if_true, List.length_cons]
    rw [ih (fun x hx => hpre x (List.mem_cons_of_mem a hx))]

theorem closeLenAt_cons_eq (cl c : Char) (rest : PyStr) :
    closeLenAt cl (c :: rest) =
      if c = '\n' then
        match rest.drop (wsRun rest) with
        | a :: b :: _ =>
          if a = cl && b = ';' then some (1 + wsRun rest + 2) else none
        | _ => none
      else none := rfl

theorem closeLenAt_not_nl {cl c : Char} {rest : PyStr} (hc : c ≠ '\n') :
    closeLenAt cl (c :: rest) = none := by
  rw [closeLenAt_cons_eq, if_neg hc]

theorem closeLenAt_nl_not_close {rest : PyStr} {c0 : Char} {tl : PyStr}
    (hd : rest.drop (wsRun rest) = c0 :: tl) (h0 : c0 ≠ ']') :
    closeLenAt ']' ('\n' :: rest) = none := by
  rw [closeLenAt_cons_eq, if_pos rfl, hd]
  cases tl with
  | nil => rfl
  | cons b bs => simp [h0]

theorem closeLenAt_nl_close {rest : PyStr} {tl : PyStr}
    (hd : rest.drop (wsRun rest) = ']' :: ';' :: tl) :
    closeLenAt ']' ('\n' :: rest) = some (1 + wsRun rest + 2) := by
  rw [closeLenAt_cons_eq, if_pos rfl, hd]
  simp

theorem scanTerm_cons_eq (cl c : Char) (rest : PyStr) :
    scanTerm cl (c :: rest) =
      match closeLenAt cl (c :: rest) with
      | some n => some n
      | none => (scanTerm cl rest).map (· + 1) := rfl

theorem scanTerm_cons_none {cl c : Char} {rest : PyStr}
    (h : closeLenAt cl (c :: rest) = none) :
    scanTerm cl (c :: rest) = (scanTerm cl rest).map (· + 1) := by
  rw [scanTerm_cons_eq, h]

theorem scanTerm_cons_some {cl c : Char} {rest : PyStr} {n : Nat}
    (h : closeLenAt cl (c :: rest) = some n) :
    scanTerm cl (c :: rest) = some n := by
  rw [scanTerm_cons_eq, h]

theorem scanTerm_append_noNl {x : PyStr} (hx : ('\n') ∉ x) (cl : Char)
    (y : PyStr) : scanTerm cl (x ++ y) = (scanTerm cl y).map (· + x.length) := by
  induction x with
  | nil =>
    cases h : scanTerm cl y <;> simp [h]
  | cons c t ih =>
    have hc : c ≠ '\n' := fun hh => hx (hh ▸ List.mem_cons_self c t)
    have ih2 := ih (fun hh => hx (List.mem_cons_of_mem c hh))
    rw [List.cons_append, scanTerm_cons_none (closeLenAt_not_nl hc), ih2]
    cases h : scanTerm cl y with
    | none => simp
    | some m =>
      simp only [Option.map_some', Option.map_some]
      have harr : m + t.length + 1 = m + (t.length + 1) := by omega
      simp [harr]

theorem closeLenAt_line_none {l : PyStr} {c0 : Char} {cr : PyStr}
    (hsh : l = recIndent ++ c0 :: cr) (hc0s : pyIsSpace c0 = false)
    (hc0 : c0 ≠ ']') (rest : PyStr) :
    closeLenAt ']' ('\n' :: (l ++ rest)) = none := by
  have hws : wsRun (l ++ rest) = 12 := by
    rw [hsh, List.append_assoc, List.cons_append]
    rw [wsRun_append (by decide) hc0s]
    rfl
  have hdrop : (l ++ rest).drop (wsRun (l ++ rest)) = c0 :: (cr ++ rest) := by
    rw [hws, hsh, List.append_assoc, List.cons_append]
    have h12 : recIndent.length = 12 := rfl
    rw [List.drop_left' h12]
  exact closeLenAt_nl_not_close hdrop hc0

theorem scanTerm_line {l : PyStr} (hl : lineShape l) (Z : PyStr) :
    scanTerm ']' ('\n' :: (l ++ Z)) =
      (scanTerm ']' Z).map (· + (l.length + 1)) := by
  obtain ⟨hnl, c0, cr, hshape, hc0s, hc0⟩ := hl
  rw [scanTerm_cons_none (closeLenAt_line_none hshape hc0s hc0 Z)]
  rw [scanTerm_append_noNl hnl]
  cases h : scanTerm ']' Z with
  | none => simp
  | some m =>
    simp only [Option.map_some', Option.map_some]
    have harr : m + l.length + 1 = m + (l.length + 1) := by omega
    simp [harr]

theorem scanTerm_term (B : PyStr) :
    scanTerm ']' ('\n' :: ((("        ];").data) ++ B)) = some 11 := by
  have hsplit : (("        ];").data) ++ B = (("        ").data) ++ (']' :: ';' :: B) := by
    rfl
  have hws : wsRun ((("        ];").data) ++ B) = 8 := by
    rw [hsplit]
    exact wsRun_append (by decide) (by decide) _
  have hdrop : ((("        ];").data) ++ B).drop
      (wsRun ((("        ];").data) ++ B)) = ']' :: ';' :: B := by
    rw [hws, hsplit]
    have h8 : (("        ").data).length = 8 := rfl
    rw [List.drop_left' h8]
  have hclose := closeLenAt_nl_close hdrop
  rw [hws] at hclose
  exact scanTerm_cons_some hclose

theorem cons_nl_joinNl (ls : List PyStr) (h : ls ≠ []) :
    '\n' :: joinNl ls = ls.flatMap (fun l => '\n' :: l) := by
  induction ls with
  | nil => exact absurd rfl h
  | cons l t ih =>
    cases t with
    | nil => simp [joinNl]
    | cons r t2 =>
      rw [joinNl]
      have hrec := ih (by simp)
      simp only [List.flatMap_cons] at hrec ⊢
      rw [← hrec]
      rfl

theorem scanTerm_flat (ls : List PyStr) (hsh : ∀ l ∈ ls, lineShape l)
    (B : PyStr) :
    scanTerm ']' (ls.flatMap (fun l => '\n' :: l) ++
        '\n' :: ((("        ];").data) ++ B)) =
      some ((ls.flatMap (fun l => '\n' :: l)).length + 11) := by
  induction ls with
  | nil =>
    simp only [List.flatMap_nil, List.nil_append, List.length_nil]
    rw [scanTerm_term]
  | cons l t ih =>
    have hl := hsh l (List.mem_cons_self l t)
    have hrest := ih (fun x hx => hsh x (List.mem_cons_of_mem l hx))
    simp only [List.flatMap_cons]
    rw [List.append_assoc, List.cons_append]
    rw [scanTerm_line hl]
    rw [hrest]
    simp only [Option.map_some', List.length_append, List.length_cons]
    have : (t.flatMap fun l => '\n' :: l).length + 11 + (l.length + 1) =
        l.length + 1 + (t.flatMap fun l => '\n' :: l).length + 11 := by omega
    rw [this]

theorem splitNl_cons (c : Char) (rest : PyStr) :
    splitNl (c :: rest) =
      if c = '\n' then [] :: splitNl rest
      else
        match splitNl rest with
        | [] => [[c]]
        | h :: t2 => (c :: h) :: t2 := rfl

theorem splitNl_noNl {x : PyStr} (h : ('\n') ∉ x) : splitNl x = [x] := by
  induction x with
  | nil => rfl
  | cons c t ih =>
    have hc : c ≠ '\n' := fun hh => h (hh ▸ List.mem_cons_self c t)
    rw [splitNl_cons, if_neg hc, ih (fun hh => h (List.mem_cons_of_mem c hh))]

theorem splitNl_append {x y : PyStr} (h : ('\n') ∉ x) :
    splitNl (x ++ '\n' :: y) = x :: splitNl y := by
  induction x with
  | nil =>
    show splitNl ('\n' :: y) = [] :: splitNl y
    rw [splitNl_cons, if_pos rfl]
  | cons c t ih =>
    have hc : c ≠ '\n' := fun hh => h (hh ▸ List.mem_cons_self c t)
    rw [List.cons_append, splitNl_cons, if_neg hc,
      ih (fun hh => h (List.mem_cons_of_mem c hh))]

theorem splitNl_joinNl_term (ls : List PyStr) (hne : ls ≠ [])
    (hnl : ∀ l ∈ ls, ('\n') ∉ l) :
    splitNl (joinNl ls ++ '\n' :: (("        ];").data)) =
      ls ++ [(("        ];").data)] := by
  induction ls with
  | nil => exact absurd rfl hne
  | cons l t ih =>
    cases t with
    | nil =>
      show splitNl (joinNl [l] ++ '\n' :: _) = _
      rw [joinNl]
      rw [splitNl_append (hnl l (List.mem_cons_self l []))]
      rw [splitNl_noNl (by decide)]
      rfl
    | cons r t2 =>
      rw [joinNl]
      rw [List.append_assoc, List.cons_append]
      rw [splitNl_append (hnl l (List.mem_cons_self l (r :: t2)))]
      rw [ih (by simp) (fun x hx => hnl x (List.mem_cons_of_mem l hx))]
      rfl

theorem suffix_append_right {w y : PyStr} (h : w <:+ y) (x : PyStr) :
    w <:+ x ++ y :=
  h.trans (List.suffix_append x y)

theorem eventLine_noNl {e : Event} (h : nlFree e) : ('\n') ∉ eventLine e := by
  obtain ⟨h1, h2, h3, h4, h5, h6, h7⟩ := h
  intro hmem
  unfold eventLine at hmem
  simp only [List.append_assoc] at hmem
  simp only [List.mem_append] at hmem
  rcases hmem with hh | hh | hh | hh | hh | hh | hh | hh | hh | hh | hh | hh | hh | hh | hh
  · exact absurd hh (by decide)
  · exact h1 hh
  · exact absurd hh (by decide)
  · exact h2 hh
  · exact absurd hh (by decide)
  · exact h3 hh
  · exact absurd hh (by decide)
  · rcases mem_escq hh with hs | hs | hs
    · exact h4 hs
    · exact absurd hs (by decide)
    · exact absurd hs (by decide)
  · exact absurd hh (by decide)
  · exact h5 hh
  · exact absurd hh (by decide)
  · exact h6 hh
  · exact absurd hh (by decide)
  · rcases mem_escq hh with hs | hs | hs
    · exact h7 hs
    · exact absurd hs (by decide)
    · exact absurd hs (by decide)
  · exact absurd hh (by decide)

theorem recMarker_shape (R : PyStr) :
    ∃ cr, recMarker ++ R = recIndent ++ '\x7b' :: cr :=
  ⟨((" day: \"").data) ++ R, by
    rw [show recMarker = recIndent ++ '\x7b' :: ((" day: \"").data) from rfl]
    simp⟩

theorem lineShape_eventLine {e : Event} (h : nlFree e) :
    lineShape (eventLine e) := by
  have hline : eventLine e = recMarker ++
      (e.day ++ ((("\", start: \"").data) ++ (e.start ++ ((("\", end: \"").data) ++
        (e.endT ++ ((("\", subject: \"").data) ++ (escq e.subject ++
          ((("\", type: \"").data) ++ (e.type ++ ((("\", group: \"").data) ++
            (e.group ++ ((("\", room: \"").data) ++ (escq e.room ++
              (("\" \x7d,").data)))))))))))))) := by
    unfold eventLine
    simp [List.append_assoc]
  obtain ⟨cr, hcr⟩ := recMarker_shape
    (e.day ++ ((("\", start: \"").data) ++ (e.start ++ ((("\", end: \"").data) ++
      (e.endT ++ ((("\", subject: \"").data) ++ (escq e.subject ++
        ((("\", type: \"").data) ++ (e.type ++ ((("\", group: \"").data) ++
          (e.group ++ ((("\", room: \"").data) ++ (escq e.room ++
            (("\" \x7d,").data))))))))))))))
  exact ⟨eventLine_noNl h, '\x7b', cr, by rw [hline, hcr], by decide, by decide⟩

theorem lineShape_noEv : lineShape (("            // no events").data) :=
  ⟨by decide, '/', ("/ no events").data, by decide, by decide, by decide⟩

theorem prefix_of_take_agree {w a b : PyStr}
    (hk : a.take w.length = b.take w.length) (h : w.isPrefixOf a = true) :
    w.isPrefixOf b = true := by
  have h1 := List.prefix_iff_eq_take.mp (List.isPrefixOf_iff_prefix.mp h)
  rw [hk] at h1
  exact List.isPrefixOf_iff_prefix.mpr (List.prefix_iff_eq_take.mpr h1)

/-- The first `op.length` characters of the substituted output at any
offset `q ≤ p` agree with the original template, so no new opener
occurrence can appear before the injected block. -/
theorem drop_out_take_eq {s op tail2 B : PyStr} {p q : Nat} (hq : q ≤ p)
    (hp : p ≤ s.length) (hpre : op.isPrefixOf (s.drop p) = true) :
    ((s.take p ++ (op ++ tail2) ++ B).drop q).take op.length =
      (s.drop q).take op.length := by
  have hlenA : (s.take p).length = p := by
    rw [List.length_take]
    omega
  have hout : (s.take p ++ (op ++ tail2) ++ B).drop q =
      (s.drop q).take (p - q) ++ ((op ++ tail2) ++ B) := by
    rw [List.append_assoc, List.drop_append_eq_append_drop]
    rw [List.drop_take, hlenA]
    have hz : q - p = 0 := by omega
    rw [hz, List.drop_zero]
  have hsplit : s.drop q = (s.drop q).take (p - q) ++ s.drop p := by
    have hdd : (s.drop q).drop (p - q) = s.drop p := by
      rw [List.drop_drop]
      congr 1
      omega
    rw [← hdd, List.take_append_drop]
  rw [hout]
  conv_rhs => rw [hsplit]
  have hAlen : ((s.drop q).take (p - q)).length = p - q := by
    rw [List.length_take, List.length_drop]
    omega
  conv_lhs => rw [List.take_append_eq_append_take]
  conv_rhs => rw [List.take_append_eq_append_take]
  rw [hAlen]
  congr 1
  have hop : op = (s.drop p).take op.length :=
    List.prefix_iff_eq_take.mp (List.isPrefixOf_iff_prefix.mp hpre)
  have hL : ((op ++ tail2) ++ B).take (op.length - (p - q)) =
      op.take (op.length - (p - q)) := by
    rw [List.append_assoc, List.take_append_eq_append_take]
    have hz : op.length - (p - q) - op.length = 0 := by omega
    rw [hz, List.take_zero, List.append_nil]
  have hR : (s.drop p).take (op.length - (p - q)) =
      op.take (op.length - (p - q)) := by
    have h1 : ((s.drop p).take op.length).take (op.length - (p - q)) =
        (s.drop p).take (op.length - (p - q)) := by
      rw [List.take_take]
      congr 1
      omega
    rw [← h1, ← hop]
  rw [hL, hR]

/-- Unfolding of `matchBlock` when the opener is a prefix. -/
theorem matchBlock_eq_of_pref {op : PyStr} {cl : Char} {s : PyStr}
    (h : op.isPrefixOf s = true) :
    matchBlock op cl s =
      match scanTerm cl ((s.drop op.length).drop (wsRun (s.drop op.length))) with
      | some n => some (op.length + wsRun (s.drop op.length) + n)
      | none =>
        if ((s.drop op.length).take (wsRun (s.drop op.length))).any
              (fun c => c = '\n') &&
            (match (s.drop op.length).drop (wsRun (s.drop op.length)) with
             | x :: y :: _ => x = cl && y = ';'
             | _ => false) then
          some (op.length + wsRun (s.drop op.length) + 2)
        else none := by
  unfold matchBlock
  rw [if_pos h]

/-- The rendered event block, followed by anything, matches the
event-array pattern exactly at its own length. -/
theorem matchRaw_block (events : List Event) (B : PyStr)
    (hnl : ∀ e ∈ events, nlFree e) :
    matchRaw (rawRepl events ++ B) = some (rawRepl events).length := by
  obtain ⟨lines, hlines_eq, hne, hshape⟩ :
      ∃ lines : List PyStr, raw_data_to_js events = joinNl lines ∧
        lines ≠ [] ∧ ∀ l ∈ lines, lineShape l := by
    cases events with
    | nil =>
      refine ⟨[("            // no events").data], rfl, by simp, ?_⟩
      intro l hl
      simp only [List.mem_singleton] at hl
      subst hl
      exact lineShape_noEv
    | cons e es =>
      refine ⟨(e :: es).map eventLine, rfl, by simp, ?_⟩
      intro l hl
      obtain ⟨e', he', rfl⟩ := List.mem_map.mp hl
      exact lineShape_eventLine (hnl e' he')
  obtain ⟨l0, ls', rfl⟩ : ∃ l0 ls', lines = l0 :: ls' := by
    cases lines with
    | nil => exact absurd rfl hne
    | cons a b => exact ⟨a, b, rfl⟩
  obtain ⟨hnl0, c0, cr0, hsh0, hc0s, hc0⟩ := hshape l0 (List.mem_cons_self _ _)
  have hflat : '\n' :: raw_data_to_js events =
      (l0 :: ls').flatMap (fun l => '\n' :: l) := by
    rw [hlines_eq]
    exact cons_nl_joinNl _ (by simp)
  have hsuffix : rawRepl events ++ B =
      rawOpener ++ (((l0 :: ls').flatMap (fun l => '\n' :: l)) ++
        ('\n' :: ((("        ];").data) ++ B))) := by
    unfold rawRepl
    rw [← hflat]
    simp [List.append_assoc, List.cons_append]
  have hpre : rawOpener.isPrefixOf (rawRepl events ++ B) = true := by
    rw [hsuffix]
    exact List.isPrefixOf_iff_prefix.mpr (List.prefix_append _ _)
  have ha : (rawRepl events ++ B).drop rawOpener.length =
      ((l0 :: ls').flatMap (fun l => '\n' :: l)) ++
        ('\n' :: ((("        ];").data) ++ B)) := by
    rw [hsuffix, List.drop_left]
  have hform : ((l0 :: ls').flatMap (fun l => '\n' :: l)) ++
      ('\n' :: ((("        ];").data) ++ B)) =
      ('\n' :: recIndent) ++ (c0 :: (cr0 ++
        (ls'.flatMap (fun l => '\n' :: l) ++
          ('\n' :: ((("        ];").data) ++ B))))) := by
    simp only [List.flatMap_cons]
    rw [hsh0]
    simp [List.append_assoc, List.cons_append]
  have hws : wsRun (((l0 :: ls').flatMap (fun l => '\n' :: l)) ++
      ('\n' :: ((("        ];").data) ++ B))) = 13 := by
    rw [hform, wsRun_append (by decide) hc0s]
    rfl
  have hd13 : (((l0 :: ls').flatMap (fun l => '\n' :: l)) ++
      ('\n' :: ((("        ];").data) ++ B))).drop 13 =
      (c0 :: cr0) ++ (ls'.flatMap (fun l => '\n' :: l) ++
        ('\n' :: ((("        ];").data) ++ B))) := by
    rw [hform]
    have h13 : ('\n' :: recIndent).length = 13 := rfl
    rw [List.drop_left' h13]
    simp [List.append_assoc, List.cons_append]
  have hnlc : ('\n') ∉ (c0 :: cr0) := by
    intro hmem
    apply hnl0
    rw [hsh0]
    exact List.mem_append_right _ hmem
  have hscan : scanTerm ']' ((c0 :: cr0) ++
      (ls'.flatMap (fun l => '\n' :: l) ++
        ('\n' :: ((("        ];").data) ++ B)))) =
      some ((ls'.flatMap (fun l => '\n' :: l)).length + 11 + (c0 :: cr0).length) := by
    rw [scanTerm_append_noNl hnlc]
    rw [scanTerm_flat ls' (fun x hx => hshape x (List.mem_cons_of_mem _ hx)) B]
    simp
  have hlen : (rawRepl events).length =
      rawOpener.length + 13 +
        ((ls'.flatMap (fun l => '\n' :: l)).length + 11 + (c0 :: cr0).length) := by
    have hj := congrArg List.length hflat
    simp only [List.length_cons, List.flatMap_cons, List.length_append] at hj
    have hl0 := congrArg List.length hsh0
    simp only [List.length_append, List.length_cons] at hl0
    unfold rawRepl
    simp only [List.length_append, List.length_cons, List.length_nil]
    have hterm : ((("        ];").data)).length = 10 := rfl
    have hopl : rawOpener.length = 17 := rfl
    have hind : recIndent.length = 12 := rfl
    rw [hind] at hl0
    omega
  show matchBlock rawOpener ']' (rawRepl events ++ B) = _
  rw [matchBlock_eq_of_pref hpre, ha, hws, hd13, hscan, hlen]

theorem take_drop_app {x y : PyStr} {q k : Nat} (h : q + k ≤ x.length) :
    ((x ++ y).drop q).take k = (x.drop q).take k := by
  rw [List.drop_append_eq_append_drop, List.take_append_eq_append_take]
  have h2 : k - (x.drop q).length = 0 := by
    rw [List.length_drop]
    omega
  rw [h2, List.take_zero, List.append_nil]

/-- Association-normalized form of the injected block. -/
theorem rawRepl_eq (events : List Event) :
    rawRepl events = rawOpener ++ (('\n' :: raw_data_to_js events) ++
      ('\n' :: (("        ];").data))) := by
  unfold rawRepl
  rw [List.append_assoc]

/-- Association-normalized form of `eventLine`. -/
theorem eventLine_eq (e : Event) :
    eventLine e = recMarker ++
      (e.day ++ ((("\", start: \"").data) ++ (e.start ++ ((("\", end: \"").data) ++
        (e.endT ++ ((("\", subject: \"").data) ++ (escq e.subject ++
          ((("\", type: \"").data) ++ (e.type ++ ((("\", group: \"").data) ++
            (e.group ++ ((("\", room: \"").data) ++ (escq e.room ++
              (("\" \x7d,").data)))))))))))))) := by
  unfold eventLine
  simp [List.append_assoc]

theorem isRecordLine_eventLine (e : Event) : isRecordLine (eventLine e) = true := by
  unfold isRecordLine
  refine Bool.and_eq_true_iff.mpr ⟨?_, ?_⟩
  · refine List.isPrefixOf_iff_prefix.mpr ?_
    rw [eventLine_eq]
    exact List.prefix_append _ _
  · refine List.isSuffixOf_iff_suffix.mpr ?_
    show (("\x7d,").data) <:+ eventLine e
    unfold eventLine
    exact suffix_append_right ⟨("\" ").data, by decide⟩ _

theorem scanRecords_eq_some {s : PyStr} {p n : Nat}
    (h : findFirstLen matchRaw s = some (p, n)) :
    scanRecords s = (splitNl ((s.drop p).take n)).filter isRecordLine := by
  unfold scanRecords
  rw [h]

theorem rawOpener_le_len (events : List Event) :
    rawOpener.length ≤ (rawRepl events).length := by
  rw [rawRepl_eq, List.length_append]
  omega

/-- An opener non-occurrence within the prefix region `A` is unaffected by
what follows the injected block. -/
theorem pref_stable {events : List Event} {A B B2 : PyStr} {q : Nat}
    (hq : q < A.length)
    (h : rawOpener.isPrefixOf ((A ++ rawRepl events ++ B).drop q) = false) :
    rawOpener.isPrefixOf ((A ++ rawRepl events ++ B2).drop q) = false := by
  cases hb : rawOpener.isPrefixOf ((A ++ rawRepl events ++ B2).drop q) with
  | false => rfl
  | true =>
    have hbound : q + rawOpener.length ≤ (A ++ rawRepl events).length := by
      rw [List.length_append]
      have := rawOpener_le_len events
      omega
    have hagree : ((A ++ rawRepl events ++ B2).drop q).take rawOpener.length =
        ((A ++ rawRepl events ++ B).drop q).take rawOpener.length := by
      rw [take_drop_app hbound, take_drop_app hbound]
    have hB := prefix_of_take_agree hagree hb
    rw [h] at hB
    exact Bool.noConfusion hB

/-- Any document of the form `A ++ rawRepl events ++ B` in which the
event-array opener occurs nowhere before position `A.length` re-scans to
exactly the serialized event records. -/
theorem scanRecords_at (events : List Event) (A B : PyStr)
    (hnl : ∀ e ∈ events, nlFree e)
    (hA : ∀ q, q < A.length →
      rawOpener.isPrefixOf ((A ++ rawRepl events ++ B).drop q) = false) :
    scanRecords (A ++ rawRepl events ++ B) = events.map eventLine := by
  have hnoq : ∀ q, q < A.length →
      matchRaw ((A ++ rawRepl events ++ B).drop q) = none :=
    fun q hq => matchBlock_none_of_no_pref (hA q hq)
  have hout_p : (A ++ rawRepl events ++ B).drop A.length =
      rawRepl events ++ B := by
    rw [List.append_assoc, List.drop_left]
  have hme_out : matchRaw ((A ++ rawRepl events ++ B).drop A.length) =
      some (rawRepl events).length := by
    rw [hout_p]
    exact matchRaw_block events _ hnl
  have hfind : findFirstLen matchRaw (A ++ rawRepl events ++ B) =
      some (A.length, (rawRepl events).length) :=
    findFirstLen_leftmost (by decide) hme_out hnoq
  have hregion : ((A ++ rawRepl events ++ B).drop A.length).take
      (rawRepl events).length = rawRepl events := by
    rw [hout_p]
    exact List.take_left _ _
  rw [scanRecords_eq_some hfind, hregion]
  cases events with
  | nil => decide
  | cons e es =>
    have hrr2 : rawRepl (e :: es) = rawOpener ++
        ('\n' :: (joinNl ((e :: es).map eventLine) ++
          '\n' :: (("        ];").data))) := by
      unfold rawRepl raw_data_to_js
      simp [List.append_assoc, List.cons_append]
    rw [hrr2]
    rw [splitNl_append (by decide)]
    rw [splitNl_joinNl_term _ (by simp) (fun l hl => by
      obtain ⟨e', he', rfl⟩ := List.mem_map.mp hl
      exact eventLine_noNl (hnl e' he'))]
    have h1 : isRecordLine rawOpener = false := by decide
    have h2 : isRecordLine (("        ];").data) = false := by decide
    rw [List.filter_cons_of_neg (by simp [h1]), List.filter_append]
    rw [List.filter_eq_self.mpr (fun l hl => by
      obtain ⟨e', he', rfl⟩ := List.mem_map.mp hl
      exact isRecordLine_eventLine e')]
    simp [h2]

/-- C7: rendering — title placeholder substituted, metadata injection on
or off — then re-scanning the output for the injected event block recovers
exactly the serialized event records, one per input event and in input
order (in particular, exactly as many records as input events).
Hypotheses: the event fields contain no newlines; the title-substituted
template (`titled`, the renderer's first step) matches the event-array
pattern at position `p` and contains no other occurrence of the pattern
opener (the spec's "template containing exactly one event-array block");
and, when metadata injection is enabled, the metadata pattern either
matches nowhere in the document after event injection (`rawStep`), or its
leftmost match lies entirely beyond the injected records, or entirely
before them with the metadata replacement introducing no event-array
opener ahead of the records — a metadata block beside, not overlapping,
the event block; a match overlapping the records would overwrite them, so
these cases are exactly the ones in which the records survive. -/
theorem c7_round_trip (events : List Event) (tpl title : PyStr) (im : Bool)
    (p n : Nat) (hnl : ∀ e ∈ events, nlFree e)
    (hmatch : matchRaw ((titled title tpl).drop p) = some n)
    (huniq : ∀ q, q ≤ (titled title tpl).length →
      rawOpener.isPrefixOf ((titled title tpl).drop q) = true → q = p)
    (hmeta : im = true →
      (∀ q, q ≤ (rawStep events title tpl).length →
        matchMeta ((rawStep events title tpl).drop q) = none) ∨
      (∃ r m, matchMeta ((rawStep events title tpl).drop r) = some m ∧
        (∀ q, q < r → matchMeta ((rawStep events title tpl).drop q) = none) ∧
        (p + (rawRepl events).length ≤ r ∨
          (r + m ≤ p ∧
            ∀ q, q < p + (metaRepl events).length - m →
              rawOpener.isPrefixOf
                ((metaStep events (rawStep events title tpl)).drop q) = false)))) :
    scanRecords (generate_readable_html events tpl im title) =
      events.map eventLine ∧
    (scanRecords (generate_readable_html events tpl im title)).length =
      events.length := by
  have hpre_p : rawOpener.isPrefixOf ((titled title tpl).drop p) = true :=
    matchBlock_isSome_prefix hmatch
  have hp_le : p ≤ (titled title tpl).length := by
    by_contra hgt
    push_neg at hgt
    have hdrop : (titled title tpl).drop p = [] := List.drop_eq_nil_of_le (by omega)
    rw [hdrop] at hpre_p
    exact absurd hpre_p (by decide)
  have hmin_tpl : ∀ q, q < p → matchRaw ((titled title tpl).drop q) = none := by
    intro q hq
    cases hmq : matchRaw ((titled title tpl).drop q) with
    | none => rfl
    | some m =>
      have hpq := matchBlock_isSome_prefix hmq
      have := huniq q (by omega) hpq
      omega
  have hout : rawStep events title tpl =
      (titled title tpl).take p ++ rawRepl events ++
        (titled title tpl).drop (p + n) := by
    unfold rawStep
    exact subFirst_leftmost (by decide) hmatch hmin_tpl
  have hAlen : ((titled title tpl).take p).length = p := by
    rw [List.length_take]
    omega
  have hA : ∀ q, q < ((titled title tpl).take p).length →
      rawOpener.isPrefixOf (((titled title tpl).take p ++ rawRepl events ++
        (titled title tpl).drop (p + n)).drop q) = false := by
    intro q hq
    rw [hAlen] at hq
    cases hb : rawOpener.isPrefixOf (((titled title tpl).take p ++ rawRepl events ++
        (titled title tpl).drop (p + n)).drop q) with
    | false => rfl
    | true =>
      rw [rawRepl_eq] at hb
      have htake := @drop_out_take_eq (titled title tpl) rawOpener
        (('\n' :: raw_data_to_js events) ++ ('\n' :: (("        ];").data)))
        ((titled title tpl).drop (p + n)) p q (by omega : q ≤ p) hp_le hpre_p
      have hbtpl : rawOpener.isPrefixOf ((titled title tpl).drop q) = true :=
        prefix_of_take_agree htake hb
      have := huniq q (by omega) hbtpl
      omega
  have hscan2 : scanRecords ((titled title tpl).take p ++ rawRepl events ++
      (titled title tpl).drop (p + n)) = events.map eventLine :=
    scanRecords_at events _ _ hnl hA
  have hgen : generate_readable_html events tpl im title =
      if im then metaStep events (rawStep events title tpl)
      else rawStep events title tpl := rfl
  have hmain : scanRecords (generate_readable_html events tpl im title) =
      events.map eventLine := by
    cases im with
    | false =>
      rw [hgen, if_neg (by simp), hout]
      exact hscan2
    | true =>
      rw [hgen, if_pos rfl]
      rcases hmeta rfl with hnone | ⟨r, m, hsome, hminm, hside⟩
      · have hid : metaStep events (rawStep events title tpl) =
            rawStep events title tpl := by
          unfold metaStep
          exact subFirst_id hnone
        rw [hid, hout]
        exact hscan2
      · have hsub : metaStep events (rawStep events title tpl) =
            (rawStep events title tpl).take r ++ metaRepl events ++
              (rawStep events title tpl).drop (r + m) := by
          unfold metaStep
          exact subFirst_leftmost (by decide) hsome hminm
        rcases hside with hafter | ⟨hbefore, hno⟩
        · have hlenAR : ((titled title tpl).take p ++ rawRepl events).length =
              p + (rawRepl events).length := by
            rw [List.length_append, hAlen]
          have htk : ((titled title tpl).take p ++ rawRepl events ++
              (titled title tpl).drop (p + n)).take r =
              ((titled title tpl).take p ++ rawRepl events) ++
                ((titled title tpl).drop (p + n)).take
                  (r - (p + (rawRepl events).length)) := by
            rw [List.take_append_eq_append_take]
            congr 1
            · exact List.take_of_length_le (by rw [hlenAR]; omega)
            · rw [hlenAR]
          have hdr : ((titled title tpl).take p ++ rawRepl events ++
              (titled title tpl).drop (p + n)).drop (r + m) =
              ((titled title tpl).drop (p + n)).drop
                (r + m - (p + (rawRepl events).length)) := by
            rw [List.drop_append_eq_append_drop]
            rw [List.drop_eq_nil_of_le (by rw [hlenAR]; omega), List.nil_append,
              hlenAR]
          have hfullA : metaStep events (rawStep events title tpl) =
              (titled title tpl).take p ++ rawRepl events ++
                (((titled title tpl).drop (p + n)).take
                    (r - (p + (rawRepl events).length)) ++
                  (metaRepl events ++
                    ((titled title tpl).drop (p + n)).drop
                      (r + m - (p + (rawRepl events).length)))) := by
            rw [hsub, hout, htk, hdr]
            simp [List.append_assoc]
          rw [hfullA]
          exact scanRecords_at events _ _ hnl
            (fun q hq => pref_stable hq (hA q hq))
        · have htk2 : ((titled title tpl).take p ++ rawRepl events ++
              (titled title tpl).drop (p + n)).take r =
              ((titled title tpl).take p).take r := by
            rw [List.take_append_eq_append_take]
            rw [show r - ((titled title tpl).take p ++ rawRepl events).length = 0 by
              rw [List.length_append, hAlen]
              omega]
            rw [List.take_zero, List.append_nil]
            rw [List.take_append_eq_append_take]
            rw [show r - ((titled title tpl).take p).length = 0 by
              rw [hAlen]
              omega]
            rw [List.take_zero, List.append_nil]
          have hdr2 : ((titled title tpl).take p ++ rawRepl events ++
              (titled title tpl).drop (p + n)).drop (r + m) =
              (((titled title tpl).take p).drop (r + m) ++ rawRepl events) ++
                (titled title tpl).drop (p + n) := by
            rw [List.drop_append_eq_append_drop]
            rw [show r + m - ((titled title tpl).take p ++ rawRepl events).length = 0 by
              rw [List.length_append, hAlen]
              omega]
            rw [List.drop_zero]
            congr 1
            rw [List.drop_append_eq_append_drop]
            rw [show r + m - ((titled title tpl).take p).length = 0 by
              rw [hAlen]
              omega]
            rw [List.drop_zero]
          have hfullB : metaStep events (rawStep events title tpl) =
              (((titled title tpl).take p).take r ++ (metaRepl events ++
                ((titled title tpl).take p).drop (r + m))) ++ rawRepl events ++
                (titled title tpl).drop (p + n) := by
            rw [hsub, hout, htk2, hdr2]
            simp [List.append_assoc]
          have hlen2 : (((titled title tpl).take p).take r ++ (metaRepl events ++
              ((titled title tpl).take p).drop (r + m))).length =
              p + (metaRepl events).length - m := by
            simp only [List.length_append, List.length_take, List.length_drop]
            omega
          rw [hfullB]
          apply scanRecords_at events _ _ hnl
          intro q hq
          rw [hlen2] at hq
          have hres := hno q hq
          rw [hfullB] at hres
          exact hres
  refine ⟨hmain, ?_⟩
  rw [hmain]
  exact List.length_map _ _

set_option maxRecDepth 100000 in
theorem c7_round_trip_witness :
    scanRecords (generate_readable_html [sampleEvent]
        (("__PLAN_TITLE__\nconst rawData = [\nx\n ];Z").data) true (("T").data)) =
      ([sampleEvent]).map eventLine ∧
    (scanRecords (generate_readable_html [sampleEvent]
        (("__PLAN_TITLE__\nconst rawData = [\nx\n ];Z").data) true
        (("T").data))).length =
      ([sampleEvent] : List Event).length :=
  c7_round_trip [sampleEvent]
    (("__PLAN_TITLE__\nconst rawData = [\nx\n ];Z").data)
    (("T").data) true 2 23
    (by
      intro e he
      rw [List.mem_singleton] at he
      subst he
      unfold nlFree
      exact ⟨by decide, by decide, by decide, by decide, by decide, by decide,
        by decide⟩)
    (by decide) (by decide)
    (fun _ => Or.inl (by decide))

end Usos
